import Mathlib

/-! # skycfg: `internal/go/skycfg/proto_util.go`

A shallow embedding of `messageTypeName` and `protoGetProperties`, followed by
the properties established about them.

Conventions of the embedding.

* A Go panic is the result `none`.
* Go strings are `String`; the names and tags that occur are ASCII.
* Go `int` is the 64-bit machine integer: values are `Int`, the increment of
  the tag counter wraps around (`wrapInt`), and `strconv.Atoi` yields the
  nearest representable value for a number out of range.
* Library functions called by the source (`strings`, `strconv`, `fmt`,
  `reflect`, `golang/protobuf/proto`, `gengo/namer`) are modelled by the
  definitions marked as library models below, after the behaviour of the
  libraries the file was written against (`golang/protobuf` 1.2, whose
  `proto.GetProperties` keeps one property set object per type).
* `Prop` and `Type` are reserved words: the Go fields of these names are
  `Props` and `Typ`.
* The calls of `log.Println` are left out.
-/

namespace Skycfg

/-! ## Message naming -/

/-- Go slice indexing `xs[i]` with an `int` index: a panic outside `0 ≤ i < len(xs)`. -/
def index {α : Type} (xs : List α) (i : Int) : Option α :=
  if i < 0 then none else xs[i.toNat]?

/-- The part of `descriptor_pb.DescriptorProto` the code reads: the optional
name and the nested message types. -/
inductive DescriptorProto where
  | mk (Name : Option String) (NestedType : List DescriptorProto)

/-- Generated getter `GetName`: the name, or the empty string when unset. -/
def DescriptorProto.GetName : DescriptorProto → String
  | .mk n _ => n.getD ""

/-- Field `NestedType`. -/
def DescriptorProto.NestedType : DescriptorProto → List DescriptorProto
  | .mk _ ns => ns

/-- The part of `descriptor_pb.FileDescriptorProto` the code reads. -/
structure FileDescriptorProto where
  Package : Option String
  MessageType : List DescriptorProto

/-- Generated getter `GetPackage`: the package, or the empty string when unset. -/
def FileDescriptorProto.GetPackage (fd : FileDescriptorProto) : String :=
  fd.Package.getD ""

/-- Library model of `strings.Join`. -/
def strings.Join (chunks : List String) (sep : String) : String :=
  sep.intercalate chunks

/-- The loop of `messageTypeName` (lines 73-77) from index `ii` on: `rest` is
`path[ii:]`; each round appends the current name and descends, and the
terminal name is appended after the loop. -/
def walkPath (msgDesc : DescriptorProto) (chunks : List String) :
    List Int → Option (List String)
  | [] => some (chunks ++ [msgDesc.GetName])
  | i :: rest =>
    match index msgDesc.NestedType i with
    | none => none
    | some next => walkPath next (chunks ++ [msgDesc.GetName]) rest

/-- Lines 67-78 of `messageTypeName`: the manual resolution of the name from a
decoded file descriptor and a path of indices. -/
def resolveManually (fileDesc : FileDescriptorProto) (path : List Int) : Option String :=
  let chunks : List String :=
    if fileDesc.GetPackage ≠ "" then [fileDesc.GetPackage] else []
  match path with
  | [] => none
  | p0 :: rest =>
    match index fileDesc.MessageType p0 with
    | none => none
    | some msgDesc =>
      match walkPath msgDesc chunks rest with
      | none => none
      | some all => some (strings.Join all ".")

/-- A `proto.Message` value as `messageTypeName` sees it: the optional
`XXX_MessageName` method, the optional `Descriptor` method (compressed
descriptor bytes and path), and the name under which the value's type is
registered with the `proto` package, if it is. -/
structure Message where
  XXX_MessageName : Option String
  Descriptor : Option (List Nat × List Int)
  Registered : Option String

/-- Library model of `proto.MessageName`: the `XXX_MessageName` method when
present, else the registry entry of the type, the empty string when there is
none. -/
def protoMessageName (msg : Message) : String :=
  match msg.XXX_MessageName with
  | some n => n
  | none => msg.Registered.getD ""

/-- The function `messageTypeName`. `mustParseFileDescriptor` (gunzip, then
unmarshal, a panic on failure) is the argument `parse`. -/
def messageTypeName (parse : List Nat → Option FileDescriptorProto)
    (msg : Message) : Option String :=
  match msg.XXX_MessageName with
  | some name => some name
  | none =>
    match msg.Descriptor with
    | none => some (protoMessageName msg)
    | some (gzBytes, path) =>
      match parse gzBytes with
      | none => none
      | some fileDesc => resolveManually fileDesc path

/-- The types a path traverses, outermost first and the terminal type last:
the first index selects a top-level type and each later index a nested type
of the type reached so far. -/
def nestedAlong (d : DescriptorProto) : List Int → Option (List DescriptorProto)
  | [] => some [d]
  | i :: rest =>
    match index d.NestedType i with
    | none => none
    | some n => (nestedAlong n rest).map (fun ts => d :: ts)

/-- The types traversed from the file level; `none` when an index is out of
range or the path is empty. -/
def typesAlong (fd : FileDescriptorProto) : List Int → Option (List DescriptorProto)
  | [] => none
  | i :: rest =>
    match index fd.MessageType i with
    | none => none
    | some d => nestedAlong d rest

/-- Every index after the first is in range for the nested types of the type
reached so far. -/
def nestedInRange (d : DescriptorProto) : List Int → Prop
  | [] => True
  | i :: rest =>
    0 ≤ i ∧ i < d.NestedType.length ∧
      ∀ n, index d.NestedType i = some n → nestedInRange n rest

/-- All indices of the path are in range: the first for the top-level types
of the file, the later ones for the nested types along the way. -/
def pathInRange (fd : FileDescriptorProto) : List Int → Prop
  | [] => True
  | i :: rest =>
    0 ≤ i ∧ i < fd.MessageType.length ∧
      ∀ d, index fd.MessageType i = some d → nestedInRange d rest

/-- The dotted name the naming convention gives to a list of traversed types:
the package when non-empty, then every type name in order. -/
def qualifiedName (fd : FileDescriptorProto) (ts : List DescriptorProto) : String :=
  ".".intercalate
    ((if fd.GetPackage = "" then [] else [fd.GetPackage]) ++ ts.map DescriptorProto.GetName)

/-- Scenario A: package a.b, top-level type Outer with nested type Inner. -/
def scenarioA : FileDescriptorProto :=
  { Package := some "a.b"
    MessageType := [.mk (some "Outer") [.mk (some "Inner") []]] }

/-! ## Library models: strings, numbers -/

/-- Splitting a character list at every occurrence of `sep`; never empty. -/
def splitChars (sep : Char) : List Char → List (List Char)
  | [] => [[]]
  | c :: cs =>
    if c = sep then [] :: splitChars sep cs
    else
      match splitChars sep cs with
      | [] => [[c]]
      | h :: t => (c :: h) :: t

/-- Library model of `strings.Split` for a one-character separator. -/
def strings.Split (s : String) (sep : Char) : List String :=
  (splitChars sep s.data).map String.mk

/-- Library model of `strings.HasPrefix`. -/
def strings.HasPrefix (s pre : String) : Bool :=
  pre.data.isPrefixOf s.data

/-- The text of `s` from position `n` on, the Go slice `s[n:]`. -/
def strDrop (s : String) (n : Nat) : String :=
  String.mk (s.data.drop n)

/-- Value of a decimal digit character. -/
def digitValue (c : Char) : Option Nat :=
  if 48 ≤ c.toNat ∧ c.toNat ≤ 57 then some (c.toNat - 48) else none

/-- Reading a run of decimal digits onto an accumulator; `none` at any other
character. -/
def parseDigits : List Char → Nat → Option Nat
  | [], acc => some acc
  | c :: cs, acc =>
    match digitValue c with
    | none => none
    | some d => parseDigits cs (acc * 10 + d)

/-- The largest value of Go's 64-bit `int`. -/
def maxInt : Int := 9223372036854775807

/-- The smallest value of Go's 64-bit `int`. -/
def minInt : Int := -9223372036854775808

/-- Go's `int` arithmetic wraps around: the representative of `x` between
`minInt` and `maxInt` modulo 2^64. -/
def wrapInt (x : Int) : Int :=
  (x - minInt) % 18446744073709551616 + minInt

/-- The number a decimal numeral denotes: an optional sign and at least one
decimal digit; `none` is a syntax error. -/
def parseDecimal (s : String) : Option Int :=
  match s.data with
  | [] => none
  | c :: ds =>
    if c = '-' then
      (if ds = [] then none else (parseDigits ds 0).map (fun n => -(n : Int)))
    else if c = '+' then
      (if ds = [] then none else (parseDigits ds 0).map (fun n => (n : Int)))
    else (parseDigits (c :: ds) 0).map (fun n => (n : Int))

/-- Library model of `strconv.Atoi`: the value and whether there was no error.
A syntax error gives 0, a number out of the range of `int` gives the nearest
value of `int`, both with an error. -/
def strconv.Atoi (s : String) : Int × Bool :=
  match parseDecimal s with
  | none => (0, false)
  | some n =>
    if n > maxInt then (maxInt, false)
    else if n < minInt then (minInt, false)
    else (n, true)

/-- The character of a decimal digit. -/
def digitChar (d : Nat) : Char := Char.ofNat (48 + d)

/-- Decimal digits of a natural number, most significant first; `fuel` bounds
the number of digits. -/
def natDigits : Nat → Nat → List Char
  | 0, _ => []
  | fuel + 1, n =>
    if n < 10 then [digitChar n] else natDigits fuel (n / 10) ++ [digitChar (n % 10)]

/-- Library model of the verb `%d` of `fmt.Sprintf` on an `int`. -/
def formatInt : Int → String
  | .ofNat n => String.mk (natDigits (n + 1) n)
  | .negSucc n => String.mk ('-' :: natDigits (n + 2) (n + 1))

/-! ## Library models: `reflect` -/

/-- The kinds of `reflect.Kind`. -/
inductive Kind where
  | Invalid | Bool | Int | Int8 | Int16 | Int32 | Int64
  | Uint | Uint8 | Uint16 | Uint32 | Uint64 | Uintptr
  | Float32 | Float64 | Complex64 | Complex128
  | Array | Chan | Func | Interface | Map | Ptr | Slice | String | Struct
  | UnsafePointer
  deriving DecidableEq

/-- A `reflect.Type` as far as the code inspects the type of a field or of a
oneof wrapper: its identity and its kind. -/
structure TypeRef where
  id : String
  kind : Kind
  deriving DecidableEq

/-- A `reflect.StructTag`, modelled by the key/value pairs that its
conventional syntax `key:"value"` encodes, in order. The values are taken to
be free of quotes and backslashes, so that a value written between quotes, as
line 119 does, is read back as it is. -/
abbrev StructTag := List (String × String)

/-- Library model of `StructTag.Get`: the value of the first pair with this
key, the empty string when there is none. -/
def StructTag.Get (tag : StructTag) (key : String) : String :=
  match tag.find? (fun kv => kv.1 = key) with
  | some kv => kv.2
  | none => ""

/-- A `reflect.StructField`: name, type and tag. -/
structure StructField where
  Name : String
  Typ : TypeRef
  Tag : StructTag
  deriving DecidableEq

/-! ## Library models: `golang/protobuf/proto` -/

/-- The part of `proto.Properties` that is read from the `protobuf` tag value
and the field name. What the library derives in addition from the type of the
field alone (the properties of map keys and values, the struct type of a
message field) is left out. -/
structure Properties where
  Name : String := ""
  OrigName : String := ""
  JSONName : String := ""
  Wire : String := ""
  WireType : Int := 0
  Tag : Int := 0
  Required : Bool := false
  Optional : Bool := false
  Repeated : Bool := false
  Packed : Bool := false
  Enum : String := ""
  proto3 : Bool := false
  oneof : Bool := false
  Default : String := ""
  HasDefault : Bool := false
  deriving DecidableEq

/-- The wire type that `Parse` derives from the wire name (`WireVarint` 0,
`WireFixed64` 1, `WireBytes` 2, `WireFixed32` 5); `none` for a wire name it
does not know. -/
def wireTypeOf (wire : String) : Option Int :=
  if wire = "varint" then some 0
  else if wire = "fixed32" then some 5
  else if wire = "fixed64" then some 1
  else if wire = "zigzag32" then some 0
  else if wire = "zigzag64" then some 0
  else if wire = "bytes" ∨ wire = "group" then some 2
  else none

/-- The loop of `Properties.Parse` over the options after the tag number. -/
def parseOptions (p : Properties) : List String → Properties
  | [] => p
  | f :: rest =>
    if f = "req" then parseOptions { p with Required := true } rest
    else if f = "opt" then parseOptions { p with Optional := true } rest
    else if f = "rep" then parseOptions { p with Repeated := true } rest
    else if f = "packed" then parseOptions { p with Packed := true } rest
    else if strings.HasPrefix f "name=" then parseOptions { p with OrigName := strDrop f 5 } rest
    else if strings.HasPrefix f "json=" then parseOptions { p with JSONName := strDrop f 5 } rest
    else if strings.HasPrefix f "enum=" then parseOptions { p with Enum := strDrop f 5 } rest
    else if f = "proto3" then parseOptions { p with proto3 := true } rest
    else if f = "oneof" then parseOptions { p with oneof := true } rest
    else if strings.HasPrefix f "def=" then
      { p with
        HasDefault := true
        Default := if rest = [] then strDrop f 4
                   else strDrop f 4 ++ "," ++ strings.Join rest "," }
    else parseOptions p rest

/-- Library model of `(*Properties).Parse` on a `protobuf` tag value such as
`bytes,49,opt,name=foo`: fewer than two comma-separated parts leave the
properties as they are; the wire name is stored, and an unknown wire name
ends the parse there; the tag number is stored, and an error of
`strconv.Atoi` ends the parse there. -/
def Properties.Parse (p : Properties) (s : String) : Properties :=
  match strings.Split s ',' with
  | wire :: num :: opts =>
    match wireTypeOf wire with
    | none => { p with Wire := wire }
    | some wt =>
      if (strconv.Atoi num).2 then
        parseOptions { p with Wire := wire, WireType := wt, Tag := (strconv.Atoi num).1 } opts
      else { p with Wire := wire, WireType := wt, Tag := (strconv.Atoi num).1 }
  | _ => p

/-- Library model of `(*Properties).init`: the names are set to the field
name, then a non-empty `protobuf` tag value is parsed. -/
def Properties.init (name tag : String) : Properties :=
  let p : Properties := { Name := name, OrigName := name }
  if tag = "" then p else p.Parse tag

/-- The `proto.Properties` that `proto.GetProperties` computes for one field:
`init` on the `protobuf` tag value, and the original name replaced by a
non-empty `protobuf_oneof` tag value. -/
def fieldProperties (f : StructField) : Properties :=
  let p := Properties.init f.Name (f.Tag.Get "protobuf")
  if f.Tag.Get "protobuf_oneof" ≠ "" then { p with OrigName := f.Tag.Get "protobuf_oneof" } else p

/-- The part of `proto.OneofProperties` the code sets: wrapper type, slot
index and properties (`Prop` in the source). -/
structure OneofProperties where
  Typ : TypeRef
  Field : Int
  Props : Properties
  deriving DecidableEq

/-- The exported part of `proto.StructProperties`; `Props` is the field `Prop`
of the source. The map `OneofTypes` is a list of key/value pairs. -/
structure StructProperties where
  Props : List Properties
  OneofTypes : List (String × OneofProperties)
  deriving DecidableEq

/-- Map assignment `m[k] = v`. -/
def mapSet (m : List (String × OneofProperties)) (k : String) (v : OneofProperties) :
    List (String × OneofProperties) :=
  m.filter (fun e => e.1 ≠ k) ++ [(k, v)]

/-- An element of the slice that `XXX_OneofFuncs` returns last: the type of
the wrapper value, the first field of the struct it points to (`none` when
`Type.Elem().Field(0)` panics), and the interface types it implements. -/
structure OneofWrapper where
  Typ : TypeRef
  Field0 : Option StructField
  Implements : List String
  deriving DecidableEq

/-- Library model of `Type.AssignableTo` for a wrapper type: the target is
the same type or an interface the wrapper type implements. -/
def OneofWrapper.AssignableTo (w : OneofWrapper) (target : TypeRef) : Bool :=
  target = w.Typ || (target.kind = Kind.Interface && w.Implements.contains target.id)

/-- A struct type `t` as `protoGetProperties` sees it through `reflect` and
`proto`: name (empty for an unnamed struct type), fields in declaration
order, the method `XXX_OneofFuncs` when `reflect.New(t)` has one (`none`
inside when calling it as the code does panics, else the wrappers it
returns), and the oneof groups that `proto.GetProperties` itself recognises
for the type (none for GoGo-generated code). -/
structure StructType where
  Name : String
  Fields : List StructField
  XXX_OneofFuncs : Option (Option (List OneofWrapper))
  CanonicalOneofs : List (String × OneofProperties)
  deriving DecidableEq

/-- Library model of `reflect.StructOf`: the unnamed struct type with these
fields; it has no methods. The fields are taken to be ones `reflect.StructOf`
accepts. -/
def reflect.StructOf (fields : List StructField) : StructType :=
  { Name := "", Fields := fields, XXX_OneofFuncs := none, CanonicalOneofs := [] }

/-- What `proto.GetProperties` computes for a type it has not seen before. -/
def parseStruct (t : StructType) : StructProperties :=
  { Props := t.Fields.map fieldProperties, OneofTypes := t.CanonicalOneofs }

/-- The process-wide table of `proto.GetProperties`: the property set object
kept for each type seen so far. A `*StructProperties` handed out for `t` points
to the entry of `t`. -/
abbrev Cache := StructType → Option StructProperties

/-- The table before any call. -/
def Cache.empty : Cache := fun _ => none

/-- The table with the object of `t` set to `sp`. -/
def Cache.set (c : Cache) (t : StructType) (sp : StructProperties) : Cache :=
  fun u => if u = t then some sp else c u

/-- Library model of `proto.GetProperties`: the cached object of the type
when there is one, else a newly computed one that is stored. Returns the
table after the call and the content of the object handed out. The entries
the library adds for the message types of the fields are left out. -/
def proto.GetProperties (c : Cache) (t : StructType) : Cache × StructProperties :=
  match c t with
  | some sp => (c, sp)
  | none => (c.set t (parseStruct t), parseStruct t)

/-! ## Library models: `gengo/namer` -/

/-- Library model of `namer.IsPrivateGoName`: the name is empty or its first
character is its own lower case. -/
def namer.IsPrivateGoName (name : String) : Bool :=
  match name.data with
  | [] => true
  | c :: _ => c.toLower = c

/-- Library model of `namer.IL`, which ensures the first character is lower
case. -/
def namer.IL (s : String) : String :=
  match s.data with
  | [] => s
  | c :: cs => String.mk (c.toLower :: cs)

/-! ## `protoGetProperties` -/

/-- Lines 88-93: the highest tag number of the properties, starting from 0. -/
def highestTag (props : List Properties) : Int :=
  props.foldl (fun highest prop => if prop.Tag > highest then prop.Tag else highest) 0

/-- The condition of lines 98-99: no `protobuf` tag, no `protobuf_oneof`
tag, not an `XXX_` field and not a private name. -/
def untagged (f : StructField) : Bool :=
  f.Tag.Get "protobuf" = "" && f.Tag.Get "protobuf_oneof" = "" &&
    !strings.HasPrefix f.Name "XXX_" && !namer.IsPrivateGoName f.Name

/-- Lines 101-104: the name taken from the `json` tag up to the first comma,
or `namer.IL` of the field name when that is empty. -/
def derivedName (f : StructField) : String :=
  let name := (strings.Split (f.Tag.Get "json") ',').headD ""
  if name = "" then namer.IL f.Name else name

/-- Lines 106-117: the wire encoding chosen by the kind of the field type. -/
def wireOf : Kind → String
  | .Bool | .Int | .Int32 | .Int64 | .Uint | .Uint32 | .Uint64 => "varint"
  | .Map | .Ptr | .Slice | .String => "bytes"
  | .Float32 => "fixed32"
  | .Float64 => "fixed64"
  | _ => ""

/-- The tag written at line 119, a single `protobuf` entry with value
`wire,highest,name=name`. -/
def synthTag (wire : String) (highest : Int) (name : String) : StructTag :=
  [("protobuf", wire ++ "," ++ formatInt highest ++ ",name=" ++ name)]

/-- One round of the loop of lines 96-124: the field appended to `fields` and
the counter `highest` after the round. The increment `highest++` of line 118
wraps around. -/
def inferField (highest : Int) (f : StructField) : StructField × Int :=
  if untagged f then
    if derivedName f ≠ "-" then
      ({ f with Tag := synthTag (wireOf f.Typ.kind) (wrapInt (highest + 1)) (derivedName f) },
        wrapInt (highest + 1))
    else (f, highest)
  else (f, highest)

/-- The loop of lines 96-124 over the fields in declaration order: the slice
`fields` and the final value of `highest`. -/
def inferFields (highest : Int) : List StructField → List StructField × Int
  | [] => ([], highest)
  | f :: rest =>
    ((inferField highest f).1 :: (inferFields (inferField highest f).2 rest).1,
      (inferFields (inferField highest f).2 rest).2)

/-- Lines 139-146: some field carries a `protobuf_oneof` tag. -/
def expectOneofs (t : StructType) : Bool :=
  t.Fields.any (fun f => f.Tag.Get "protobuf_oneof" ≠ "")

/-- Lines 182-188: the index of the first field the wrapper type is assignable
to, counted from `ii`; `none` when there is none. -/
def firstAssignable (w : OneofWrapper) : List StructField → Int → Option Int
  | [], _ => none
  | f :: rest, ii => if w.AssignableTo f.Typ then some ii else firstAssignable w rest (ii + 1)

/-- Lines 175-189 for one wrapper: the key and the entry stored in
`OneofTypes`; `none` is a panic. The slot index stays 0 when no field
matches. -/
def oneofEntry (t : StructType) (w : OneofWrapper) : Option (String × OneofProperties) :=
  match w.Field0 with
  | none => none
  | some realField =>
    let p : Properties :=
      Properties.Parse { Name := realField.Name } (realField.Tag.Get "protobuf")
    some (p.OrigName,
      { Typ := w.Typ, Field := (firstAssignable w t.Fields 0).getD 0, Props := p })

/-- The loop of lines 174-190 over the wrappers, filling the map. -/
def buildOneofs (t : StructType) :
    List OneofWrapper → List (String × OneofProperties) → Option (List (String × OneofProperties))
  | [], m => some m
  | w :: rest, m =>
    match oneofEntry t w with
    | none => none
    | some (k, v) => buildOneofs t rest (mapSet m k v)

/-- The function `protoGetProperties`, on the table of `proto.GetProperties`.
Returns the table after the call and the content of the returned property
set, `none` for a panic. The logging calls are left out. -/
def protoGetProperties (c : Cache) (t : StructType) : Cache × Option StructProperties :=
  let r1 := proto.GetProperties c t
  let highest := highestTag r1.2.Props
  let fields := (inferFields highest t.Fields).1
  let r2 := proto.GetProperties r1.1 (reflect.StructOf fields)
  -- line 125 assigns to the field Prop of the object handed out for t
  let got : StructProperties := { r1.2 with Props := r2.2.Props }
  let c3 := r2.1.set t got
  if got.OneofTypes.length > 0 then (c3, some got)
  else if !expectOneofs t then (c3, some got)
  else
    match t.XXX_OneofFuncs with
    | none => (c3, some got)
    | some none => (c3, none)
    | some (some oneofTypes) =>
      match buildOneofs t oneofTypes [] with
      | none => (c3, none)
      | some m => (c3, some { Props := got.Props, OneofTypes := m })

/-! ## Notions used to state the properties -/

/-- The field receives inferred metadata: the condition of lines 98-99 holds
and the derived name is not the ignore marker. -/
def inferred (f : StructField) : Bool :=
  untagged f && decide (derivedName f ≠ "-")

/-- The number of fields receiving inferred metadata among the first `j`
fields. -/
def inferredBefore (fields : List StructField) (j : Nat) : Nat :=
  (fields.take j).countP inferred

/-- The counter `highest` after `k` increments. -/
def countUp (highest : Int) : Nat → Int
  | 0 => highest
  | k + 1 => wrapInt (countUp highest k + 1)

/-- The field carries a wire-format annotation: a non-empty `protobuf` tag. -/
def annotated (f : StructField) : Bool :=
  decide (f.Tag.Get "protobuf" ≠ "")

/-- The table holds what `proto.GetProperties` and `protoGetProperties` leave
in it: one entry per field of the type, and for every field that receives no
inferred metadata the properties `proto.GetProperties` computes for it. -/
def Cache.Canonical (c : Cache) : Prop :=
  ∀ t sp, c t = some sp →
    sp.Props.length = t.Fields.length ∧
      ∀ (j : Nat) (f : StructField), t.Fields[j]? = some f → inferred f = false →
        sp.Props[j]? = some (fieldProperties f)

/-- The part of the `json` tag of a field before the first comma. -/
def jsonName (f : StructField) : String :=
  String.mk ((f.Tag.Get "json").data.takeWhile (fun ch => ch ≠ ','))

/-- The tables the program can be in: the empty table, and the table after a
call of `proto.GetProperties` or of `protoGetProperties` on any type. -/
inductive Cache.Reachable : Cache → Prop
  | empty : Cache.Reachable Cache.empty
  | get (c : Cache) (t : StructType) :
      Cache.Reachable c → Cache.Reachable (proto.GetProperties c t).1
  | call (c : Cache) (t : StructType) :
      Cache.Reachable c → Cache.Reachable (protoGetProperties c t).1

/-- The tag numbers of a property set, in field order. -/
def tagsOf (sp : StructProperties) : List Int :=
  sp.Props.map (fun p => p.Tag)

/-- The property set a call returns, the empty one when the call panics. -/
def returned (c : Cache) (t : StructType) : StructProperties :=
  (protoGetProperties c t).2.getD ⟨[], []⟩

/-- The entry of a property set at position `j`, the zero value when there is
none. -/
def entryAt (sp : StructProperties) (j : Nat) : Properties :=
  (sp.Props[j]?).getD {}

/-! ## Example types -/

/-- The field type `int`. -/
def intT : TypeRef := { id := "int", kind := .Int }

/-- The field type `int32`. -/
def int32T : TypeRef := { id := "int32", kind := .Int32 }

/-- The field type `int8`. -/
def int8T : TypeRef := { id := "int8", kind := .Int8 }

/-- The field type `string`. -/
def stringT : TypeRef := { id := "string", kind := .String }

/-- A named struct type without methods. -/
def plainStruct (name : String) (fields : List StructField) : StructType :=
  { Name := name, Fields := fields, XXX_OneofFuncs := none, CanonicalOneofs := [] }

/-- The field `Foo int` without a tag. -/
def fieldFoo : StructField := { Name := "Foo", Typ := intT, Tag := [] }

/-- The field `BarBaz string` without a tag. -/
def fieldBarBaz : StructField := { Name := "BarBaz", Typ := stringT, Tag := [] }

/-- The field `Qux int32` without a tag. -/
def fieldQux : StructField := { Name := "Qux", Typ := int32T, Tag := [] }

/-- The field `A int32` with the annotation `varint,5,opt,name=a`. -/
def fieldA5 : StructField :=
  { Name := "A", Typ := int32T, Tag := [("protobuf", "varint,5,opt,name=a")] }

/-- The type `struct T { Foo int }`. -/
def structFoo : StructType := plainStruct "T" [fieldFoo]

/-- Scenario B: three untagged fields and nothing tagged. -/
def scenarioB : StructType := plainStruct "B" [fieldFoo, fieldBarBaz, fieldQux]

/-- Scenario C: one field tagged 5 and two untagged fields. -/
def scenarioC : StructType := plainStruct "C" [fieldA5, fieldFoo, fieldQux]

/-- A tagged field declared after an untagged one. -/
def taggedLast : StructType := plainStruct "L" [fieldFoo, fieldA5]

/-- Two fields that declare the same tag number 1. -/
def sameTagTwice : StructType :=
  plainStruct "D"
    [{ Name := "A", Typ := int32T, Tag := [("protobuf", "varint,1,opt,name=a")] },
     { Name := "B", Typ := int32T, Tag := [("protobuf", "varint,1,opt,name=b")] }]

/-- The field `Small int8` without a tag. -/
def fieldSmall : StructField := { Name := "Small", Typ := int8T, Tag := [] }

/-- A message without `XXX_MessageName` that has the `Descriptor` method
(path [0] into the file of scenario A) and is registered as x.Y. -/
def describedAndRegistered : Message :=
  { XXX_MessageName := none, Descriptor := some ([], [0]), Registered := some "x.Y" }

/-- A decoder that yields the file of scenario A for every input. -/
def parseScenarioA : List Nat → Option FileDescriptorProto :=
  fun _ => some scenarioA

/-- The type `struct S { Small int8 }`. -/
def structSmall : StructType := plainStruct "S" [fieldSmall]

/-- The field `Name string` with the tag `json:"display_name,omitempty"`. -/
def fieldJson : StructField :=
  { Name := "Name", Typ := stringT, Tag := [("json", "display_name,omitempty")] }

/-- The field `Tiny int8` without a tag. -/
def fieldTiny : StructField := { Name := "Tiny", Typ := int8T, Tag := [] }

/-- Two untagged fields of kind Int8, for which no wire encoding is chosen. -/
def twoSmall : StructType := plainStruct "S2" [fieldSmall, fieldTiny]

/-! ## The oneof fallback on its own -/

/-- Lines 84-125: the property set that reaches the oneof fallback, which is
the object handed out for `t` with its field `Prop` replaced at line 125. -/
def gotBeforeFallback (c : Cache) (t : StructType) : StructProperties :=
  { (proto.GetProperties c t).2 with
    Props := (proto.GetProperties (proto.GetProperties c t).1
      (reflect.StructOf
        (inferFields (highestTag (proto.GetProperties c t).2.Props) t.Fields).1)).2.Props }

/-- Lines 130-192: the oneof fallback on the property set `got` that reaches
it; `none` is a panic. -/
def oneofFallback (t : StructType) (got : StructProperties) : Option StructProperties :=
  if got.OneofTypes.length > 0 then some got
  else if !expectOneofs t then some got
  else
    match t.XXX_OneofFuncs with
    | none => some got
    | some none => none
    | some (some oneofTypes) =>
      match buildOneofs t oneofTypes [] with
      | none => none
      | some m => some { Props := got.Props, OneofTypes := m }

/-- Map lookup `m[k]`: the value of the first pair with this key. -/
def mapGet (m : List (String × OneofProperties)) (k : String) : Option OneofProperties :=
  match m.find? (fun e => e.1 = k) with
  | some e => some e.2
  | none => none

/-- The wrapper type is assignable to the field at index `i` of the outer
type and to no field before it. -/
def FirstAssignableAt (w : OneofWrapper) (fields : List StructField) (i : Int) : Prop :=
  (∃ f, index fields i = some f ∧ w.AssignableTo f.Typ = true) ∧
    ∀ (j : Int) (g : StructField), j < i → index fields j = some g →
      w.AssignableTo g.Typ = false

/-- The string starts with a dot. -/
def leadingDot (s : String) : Bool :=
  s.data.head? = some '.'

/-- The string ends with a dot. -/
def trailingDot (s : String) : Bool :=
  s.data.getLast? = some '.'

/-- The field is skipped: it passes the condition of lines 98-99 and its
derived name is the ignore marker. -/
def skipped (f : StructField) : Bool :=
  untagged f && decide (derivedName f = "-")

/-- The interface type `isMsg_Kind` of a oneof field. -/
def kindT : TypeRef := { id := "isMsg_Kind", kind := .Interface }

/-- The oneof field `Kind isMsg_Kind` with the tag `protobuf_oneof:"kind"`. -/
def fieldKind : StructField :=
  { Name := "Kind", Typ := kindT, Tag := [("protobuf_oneof", "kind")] }

/-- Scenario D: a type with a oneof marker field and no `XXX_OneofFuncs`
method. -/
def scenarioD : StructType := plainStruct "Msg" [fieldA5, fieldKind]

/-- A value with none of the three naming capabilities. -/
def namelessMessage : Message :=
  { XXX_MessageName := none, Descriptor := none, Registered := none }

/-- A file with package `a` whose only top-level type has no name. -/
def unnamedType : FileDescriptorProto :=
  { Package := some "a", MessageType := [.mk none []] }

/-- A file without package whose top-level type has no name and contains the
nested type `I`. -/
def unnamedOuter : FileDescriptorProto :=
  { Package := none, MessageType := [.mk none [.mk (some "I") []]] }

/-- A file with package `p` whose top-level type has no name and contains the
nested type `I`. -/
def unnamedMiddle : FileDescriptorProto :=
  { Package := some "p", MessageType := [.mk none [.mk (some "I") []]] }

/-- The field `Hidden string` with the tag `json:"-"`, which is skipped. -/
def fieldHidden : StructField :=
  { Name := "Hidden", Typ := stringT, Tag := [("json", "-")] }

/-- A type with a skipped field between two fields that receive inferred
metadata, after a field tagged 5. -/
def withSkipped : StructType := plainStruct "K" [fieldA5, fieldFoo, fieldHidden, fieldQux]

/-- Lines 175-181: the properties parsed from the first field of a wrapper
struct, with `Name` set to the declared name of that field. -/
def wrappedProps (realField : StructField) : Properties :=
  Properties.Parse { Name := realField.Name } (realField.Tag.Get "protobuf")

/-- A wrapper type `*Msg_<name>` that implements `isMsg_Kind` and whose struct
has the one field `<name> string` with the given `protobuf` tag value. -/
def kindWrapper (name tag : String) : OneofWrapper :=
  { Typ := { id := "*Msg_" ++ name, kind := .Ptr }
    Field0 := some { Name := name, Typ := stringT, Tag := [("protobuf", tag)] }
    Implements := ["isMsg_Kind"] }

/-- A wrapper type that implements no interface of the outer type. -/
def strayWrapper : OneofWrapper :=
  { Typ := { id := "*Other_Z", kind := .Ptr }
    Field0 := some { Name := "Z", Typ := stringT, Tag := [("protobuf", "bytes,3,opt,name=z,oneof")] }
    Implements := [] }

/-- A GoGo-style message type: the field `A`, the oneof field `Kind`, and an
`XXX_OneofFuncs` method enumerating the given wrappers; `proto.GetProperties`
recognises no oneof group for it. -/
def oneofStruct (wrappers : List OneofWrapper) : StructType :=
  { Name := "Msg", Fields := [fieldA5, fieldKind]
    XXX_OneofFuncs := some (some wrappers), CanonicalOneofs := [] }

/-- Two variants `X` and `Y` with distinct original names. -/
def twoVariants : StructType :=
  oneofStruct [kindWrapper "X" "bytes,1,opt,name=x,oneof",
    kindWrapper "Y" "bytes,2,opt,name=y,oneof"]

/-- Two variants `X` and `Y` whose tags give the same original name `x`. -/
def clashingVariants : StructType :=
  oneofStruct [kindWrapper "X" "bytes,1,opt,name=x,oneof",
    kindWrapper "Y" "bytes,2,opt,name=x,oneof"]

/-- One variant whose wrapper type no field of the outer type can hold. -/
def strayVariant : StructType := oneofStruct [strayWrapper]

/-- The field `Top int` with the annotation
`varint,9223372036854775807,opt,name=top`, the largest number an `int` holds. -/
def fieldTop : StructField :=
  { Name := "Top", Typ := intT
    Tag := [("protobuf", "varint,9223372036854775807,opt,name=top")] }

/-- The field `Low int` with the annotation
`varint,-9223372036854775808,opt,name=low`, the smallest number an `int`
holds. -/
def fieldLow : StructField :=
  { Name := "Low", Typ := intT
    Tag := [("protobuf", "varint,-9223372036854775808,opt,name=low")] }

/-- A field tagged with the largest `int`, then an untagged field. -/
def topThenFoo : StructType := plainStruct "O" [fieldTop, fieldFoo]

/-- A field tagged with the largest `int`, a field tagged with the smallest,
then an untagged field. -/
def topLowFoo : StructType := plainStruct "W" [fieldTop, fieldLow, fieldFoo]

/-- A field tagged 5 and an untagged field of kind Int8. -/
def taggedAndSmall : StructType := plainStruct "M" [fieldA5, fieldSmall]

/-- A GoGo-style message type with the field `A` tagged 5, the untagged field
`Foo`, the oneof field `Kind`, and one variant `X` that declares the tag
number 6. -/
def oneofBesideInferred : StructType :=
  { Name := "Msg", Fields := [fieldA5, fieldFoo, fieldKind]
    XXX_OneofFuncs := some (some [kindWrapper "X" "bytes,6,opt,name=x,oneof"])
    CanonicalOneofs := [] }

/-- Every tag number in the table is in the range of `int`, as the field `Tag`
of `proto.Properties` is an `int`. -/
def Cache.IntTags (c : Cache) : Prop :=
  ∀ t sp, c t = some sp → ∀ p ∈ sp.Props, minInt ≤ p.Tag ∧ p.Tag ≤ maxInt

/-! ## Theorems -/

theorem index_eq_some_of_range {α : Type} (xs : List α) (i : Int)
    (h0 : 0 ≤ i) (h1 : i < xs.length) : ∃ x, index xs i = some x := by
  have hlt : i.toNat < xs.length := by omega
  refine ⟨xs.get ⟨i.toNat, hlt⟩, ?_⟩
  unfold index
  rw [if_neg (by omega)]
  exact List.getElem?_eq_getElem hlt

theorem walkPath_eq (d : DescriptorProto) (chunks : List String) (path : List Int)
    (ts : List DescriptorProto) (h : nestedAlong d path = some ts) :
    walkPath d chunks path = some (chunks ++ ts.map DescriptorProto.GetName) := by
  induction path generalizing d chunks ts with
  | nil =>
    simp only [nestedAlong, Option.some.injEq] at h
    subst h
    simp [walkPath]
  | cons i rest ih =>
    simp only [nestedAlong] at h
    cases hi : index d.NestedType i with
    | none => simp [hi] at h
    | some n =>
      simp only [hi, Option.map_eq_some'] at h
      obtain ⟨ts', hts', rfl⟩ := h
      simp only [walkPath, hi]
      rw [ih n _ ts' hts']
      simp

theorem nestedAlong_of_inRange (d : DescriptorProto) (path : List Int)
    (h : nestedInRange d path) : ∃ ts, nestedAlong d path = some ts := by
  induction path generalizing d with
  | nil => exact ⟨[d], rfl⟩
  | cons i rest ih =>
    obtain ⟨h0, h1, hrest⟩ := h
    obtain ⟨n, hn⟩ := index_eq_some_of_range d.NestedType i h0 h1
    obtain ⟨ts, hts⟩ := ih n (hrest n hn)
    exact ⟨d :: ts, by simp [nestedAlong, hn, hts]⟩

theorem nestedAlong_length (d : DescriptorProto) (path : List Int)
    (ts : List DescriptorProto) (h : nestedAlong d path = some ts) :
    ts.length = path.length + 1 := by
  induction path generalizing d ts with
  | nil =>
    simp only [nestedAlong, Option.some.injEq] at h
    subst h
    rfl
  | cons i rest ih =>
    simp only [nestedAlong] at h
    cases hi : index d.NestedType i with
    | none => simp [hi] at h
    | some n =>
      simp only [hi, Option.map_eq_some'] at h
      obtain ⟨ts', hts', rfl⟩ := h
      simp [ih n ts' hts']

/-- C1: for every decoded file descriptor and every path (with a terminal
type, hence non-empty) whose indices are all in range, the manual resolution
returns the dot-join of the package name, when non-empty, and the names of the
traversed types in path order, one per index, the terminal type last. -/
theorem resolveManually_eq_qualifiedName (fd : FileDescriptorProto) (path : List Int)
    (hne : path ≠ []) (h : pathInRange fd path) :
    ∃ ts, typesAlong fd path = some ts ∧ ts.length = path.length ∧
      resolveManually fd path = some (qualifiedName fd ts) := by
  cases path with
  | nil => exact absurd rfl hne
  | cons p0 rest =>
    obtain ⟨h0, h1, hrest⟩ := h
    obtain ⟨d, hd⟩ := index_eq_some_of_range fd.MessageType p0 h0 h1
    obtain ⟨ts, hts⟩ := nestedAlong_of_inRange d rest (hrest d hd)
    refine ⟨ts, by simp [typesAlong, hd, hts], ?_, ?_⟩
    · simp [nestedAlong_length d rest ts hts]
    · simp only [resolveManually, hd, walkPath_eq d _ rest ts hts, qualifiedName, strings.Join]
      by_cases hp : fd.GetPackage = "" <;> simp [hp]

theorem scenarioA_inRange : pathInRange scenarioA [0, 0] := by
  refine ⟨by decide, by decide, ?_⟩
  intro d hd
  have : d = .mk (some "Outer") [.mk (some "Inner") []] := by
    simpa [index, scenarioA] using hd.symm
  subst this
  refine ⟨by decide, by decide, ?_⟩
  intro n _
  trivial

/-- Scenario A: package a.b, type Outer with nested type Inner and path
[0, 0]; the path is in range and the resolution is the dot-join of the
traversed names, which evaluates to a.b.Outer.Inner. -/
theorem resolveManually_scenarioA :
    ([0, 0] : List Int) ≠ [] ∧ pathInRange scenarioA [0, 0] ∧
      (∃ ts, typesAlong scenarioA [0, 0] = some ts ∧ ts.length = ([0, 0] : List Int).length ∧
        resolveManually scenarioA [0, 0] = some (qualifiedName scenarioA ts)) ∧
      resolveManually scenarioA [0, 0] = some "a.b.Outer.Inner" :=
  ⟨by decide, scenarioA_inRange,
    resolveManually_eq_qualifiedName scenarioA [0, 0] (by decide) scenarioA_inRange,
    by decide⟩

theorem digitValue_digitChar (d : Nat) (h : d < 10) : digitValue (digitChar d) = some d := by
  interval_cases d <;> decide

theorem digitChar_toNat (d : Nat) (h : d < 10) : (digitChar d).toNat = 48 + d := by
  interval_cases d <;> decide

theorem parseDigits_append (l : List Char) (c : Char) (acc : Nat) :
    parseDigits (l ++ [c]) acc =
      (parseDigits l acc).bind (fun a => (digitValue c).map (fun d => a * 10 + d)) := by
  induction l generalizing acc with
  | nil =>
    simp only [List.nil_append, parseDigits, Option.some_bind]
    cases digitValue c <;> simp [parseDigits]
  | cons x xs ih =>
    simp only [List.cons_append, parseDigits]
    cases digitValue x with
    | none => simp
    | some d => simpa using ih (acc * 10 + d)

theorem parseDigits_natDigits (fuel n : Nat) (h : n < fuel) :
    parseDigits (natDigits fuel n) 0 = some n := by
  induction fuel generalizing n with
  | zero => omega
  | succ k ih =>
    unfold natDigits
    split_ifs with hn
    · simp [parseDigits, digitValue_digitChar n hn]
    · have hlt : n / 10 < k := by omega
      rw [parseDigits_append, ih (n / 10) hlt, digitValue_digitChar _ (Nat.mod_lt n (by norm_num))]
      simp only [Option.some_bind, Option.map_some', Option.some.injEq]
      omega

theorem natDigits_digits (fuel n : Nat) :
    ∀ c ∈ natDigits fuel n, 48 ≤ c.toNat ∧ c.toNat ≤ 57 := by
  induction fuel generalizing n with
  | zero => simp [natDigits]
  | succ k ih =>
    unfold natDigits
    split_ifs with hn
    · intro c hc
      simp only [List.mem_singleton] at hc
      subst hc
      rw [digitChar_toNat n hn]; omega
    · intro c hc
      simp only [List.mem_append, List.mem_singleton] at hc
      rcases hc with hc | hc
      · exact ih _ c hc
      · subst hc
        rw [digitChar_toNat _ (Nat.mod_lt n (by norm_num))]
        have := Nat.mod_lt n (show 0 < 10 by norm_num)
        omega

theorem natDigits_ne_nil (fuel n : Nat) : natDigits (fuel + 1) n ≠ [] := by
  unfold natDigits
  split_ifs <;> simp

theorem parseDecimal_formatInt (n : Int) : parseDecimal (formatInt n) = some n := by
  cases n with
  | ofNat m =>
    have hp := parseDigits_natDigits (m + 1) m (by omega)
    have hd := natDigits_digits (m + 1) m
    have hne := natDigits_ne_nil m m
    simp only [formatInt, parseDecimal]
    cases hl : natDigits (m + 1) m with
    | nil => exact absurd hl hne
    | cons c ds =>
      rw [hl] at hp hd
      have hc := hd c (List.mem_cons_self _ _)
      have h1 : c ≠ '-' := by
        rintro rfl
        revert hc; decide
      have h2 : c ≠ '+' := by
        rintro rfl
        revert hc; decide
      simp [h1, h2, hp]
  | negSucc m =>
    have hp := parseDigits_natDigits (m + 2) (m + 1) (by omega)
    have hne := natDigits_ne_nil (m + 1) (m + 1)
    simp only [formatInt, parseDecimal]
    simp [hne, hp, Int.negSucc_eq]

theorem Atoi_formatInt (n : Int) (h0 : minInt ≤ n) (h1 : n ≤ maxInt) :
    strconv.Atoi (formatInt n) = (n, true) := by
  unfold strconv.Atoi
  rw [parseDecimal_formatInt]
  simp only []
  rw [if_neg (by omega), if_neg (by omega)]

theorem wrapInt_range (x : Int) : minInt ≤ wrapInt x ∧ wrapInt x ≤ maxInt := by
  unfold wrapInt minInt maxInt
  omega

theorem wrapInt_of_range (x : Int) (h0 : minInt ≤ x) (h1 : x ≤ maxInt) : wrapInt x = x := by
  unfold wrapInt
  unfold minInt maxInt at *
  omega

theorem wrapInt_add_one (x : Int) : wrapInt (wrapInt x + 1) = wrapInt (x + 1) := by
  unfold wrapInt minInt
  omega

theorem formatInt_no_comma (n : Int) : ',' ∉ (formatInt n).data := by
  cases n with
  | ofNat m =>
    intro h
    have := natDigits_digits (m + 1) m _ h
    revert this; decide
  | negSucc m =>
    intro h
    simp only [formatInt, List.mem_cons] at h
    rcases h with h | h
    · revert h; decide
    · have := natDigits_digits (m + 2) (m + 1) _ h
      revert this; decide

theorem splitChars_append (sep : Char) (a b : List Char) (h : sep ∉ a) :
    splitChars sep (a ++ sep :: b) = a :: splitChars sep b := by
  induction a with
  | nil => simp [splitChars]
  | cons x xs ih =>
    simp only [List.mem_cons, not_or] at h
    have hx : x ≠ sep := fun e => h.1 e.symm
    simp [splitChars, hx, ih h.2]

theorem parseOptions_Tag (p : Properties) (opts : List String) :
    (parseOptions p opts).Tag = p.Tag := by
  induction opts generalizing p with
  | nil => simp [parseOptions]
  | cons f rest ih =>
    rw [parseOptions]
    simp only [apply_ite Properties.Tag, ih]
    simp only [ite_self]

theorem parseOptions_Wire (p : Properties) (opts : List String) :
    (parseOptions p opts).Wire = p.Wire := by
  induction opts generalizing p with
  | nil => simp [parseOptions]
  | cons f rest ih =>
    rw [parseOptions]
    simp only [apply_ite Properties.Wire, ih]
    simp only [ite_self]

theorem parseOptions_Name (p : Properties) (opts : List String) :
    (parseOptions p opts).Name = p.Name := by
  induction opts generalizing p with
  | nil => simp [parseOptions]
  | cons f rest ih =>
    rw [parseOptions]
    simp only [apply_ite Properties.Name, ih]
    simp only [ite_self]

theorem wireOf_no_comma (k : Kind) : ',' ∉ (wireOf k).data := by
  cases k <;> decide

theorem synthValue_split (wire : String) (highest : Int) (name : String)
    (hw : ',' ∉ wire.data) :
    strings.Split (wire ++ "," ++ formatInt highest ++ ",name=" ++ name) ',' =
      wire :: formatInt highest :: strings.Split ("name=" ++ name) ',' := by
  have e : (wire ++ "," ++ formatInt highest ++ ",name=" ++ name).data =
      wire.data ++ ',' :: ((formatInt highest).data ++ ',' :: ("name=" ++ name).data) := by
    simp [String.data_append]
  simp only [strings.Split, e]
  rw [splitChars_append _ _ _ hw, splitChars_append _ _ _ (formatInt_no_comma highest)]
  simp

theorem synthValue_ne_empty (wire : String) (highest : Int) (name : String) :
    wire ++ "," ++ formatInt highest ++ ",name=" ++ name ≠ "" := by
  intro h
  have := congrArg String.data h
  simp [String.data_append] at this

theorem wireTypeOf_wireOf (k : Kind) (hw : wireOf k ≠ "") :
    ∃ wt, wireTypeOf (wireOf k) = some wt := by
  cases k <;> first | exact absurd rfl hw | exact ⟨_, rfl⟩

theorem synthTag_get (wire : String) (highest : Int) (name : String) :
    StructTag.Get (synthTag wire highest name) "protobuf" =
      wire ++ "," ++ formatInt highest ++ ",name=" ++ name ∧
    StructTag.Get (synthTag wire highest name) "protobuf_oneof" = "" := by
  constructor <;> simp [StructTag.Get, synthTag]

theorem fieldProperties_synth (f : StructField) (k : Kind) (highest : Int) (name : String)
    (hw : wireOf k ≠ "") (h0 : minInt ≤ highest) (h1 : highest ≤ maxInt) :
    (fieldProperties { f with Tag := synthTag (wireOf k) highest name }).Tag = highest ∧
    (fieldProperties { f with Tag := synthTag (wireOf k) highest name }).Wire = wireOf k ∧
    (fieldProperties { f with Tag := synthTag (wireOf k) highest name }).Name = f.Name := by
  obtain ⟨hg, ho⟩ := synthTag_get (wireOf k) highest name
  obtain ⟨wt, hwt⟩ := wireTypeOf_wireOf k hw
  simp only [fieldProperties, hg, ho, Properties.init, ne_eq, not_true_eq_false, if_false,
    if_neg (synthValue_ne_empty _ _ _), Properties.Parse,
    synthValue_split _ _ _ (wireOf_no_comma k), Atoi_formatInt highest h0 h1, hwt, if_true]
  exact ⟨parseOptions_Tag _ _, parseOptions_Wire _ _, parseOptions_Name _ _⟩

theorem fieldProperties_synth_unknown (f : StructField) (k : Kind) (highest : Int)
    (name : String) (hw : wireOf k = "") :
    fieldProperties { f with Tag := synthTag (wireOf k) highest name } =
      { Name := f.Name, OrigName := f.Name } := by
  obtain ⟨hg, ho⟩ := synthTag_get (wireOf k) highest name
  have hwt : wireTypeOf (wireOf k) = none := by rw [hw]; rfl
  simp only [fieldProperties, hg, ho, Properties.init, ne_eq, not_true_eq_false, if_false,
    if_neg (synthValue_ne_empty _ _ _), Properties.Parse,
    synthValue_split _ _ _ (wireOf_no_comma k), hwt]
  rw [hw]

theorem inferField_of_inferred (highest : Int) (f : StructField) (hf : inferred f = true) :
    inferField highest f =
      ({ f with Tag := synthTag (wireOf f.Typ.kind) (wrapInt (highest + 1)) (derivedName f) },
        wrapInt (highest + 1)) := by
  simp only [inferred, Bool.and_eq_true, decide_eq_true_eq] at hf
  simp [inferField, hf.1, hf.2]

theorem inferField_of_not_inferred (highest : Int) (f : StructField)
    (hf : inferred f = false) : inferField highest f = (f, highest) := by
  simp only [inferred, Bool.and_eq_false_iff, decide_eq_false_iff_not, not_not] at hf
  rcases hf with hf | hf
  · simp [inferField, hf]
  · simp [inferField, hf]

theorem inferFields_length (highest : Int) (fields : List StructField) :
    (inferFields highest fields).1.length = fields.length := by
  induction fields generalizing highest with
  | nil => rfl
  | cons f rest ih => simp [inferFields, ih]

theorem countUp_succ (highest : Int) (k : Nat) :
    wrapInt (countUp highest k + 1) = countUp highest (k + 1) := rfl

theorem countUp_succ_left (highest : Int) (k : Nat) :
    countUp (wrapInt (highest + 1)) k = countUp highest (k + 1) := by
  induction k with
  | zero => rfl
  | succ n ih =>
    show wrapInt (countUp (wrapInt (highest + 1)) n + 1) = wrapInt (countUp highest (n + 1) + 1)
    rw [ih]

theorem countUp_eq_add (highest : Int) (k : Nat) (h0 : minInt ≤ highest)
    (h1 : highest + (k : Int) ≤ maxInt) : countUp highest k = highest + (k : Int) := by
  induction k with
  | zero => simp [countUp]
  | succ n ih =>
    have hn : countUp highest n = highest + (n : Int) := ih (by push_cast at h1; omega)
    show wrapInt (countUp highest n + 1) = _
    rw [hn, wrapInt_of_range _ (by omega) (by push_cast at h1; omega)]
    push_cast
    ring

theorem countUp_eq_wrap (highest : Int) (k : Nat) (h0 : minInt ≤ highest)
    (h1 : highest ≤ maxInt) : countUp highest k = wrapInt (highest + (k : Int)) := by
  induction k with
  | zero => simp [countUp, wrapInt_of_range _ h0 h1]
  | succ n ih =>
    show wrapInt (countUp highest n + 1) = _
    rw [ih, wrapInt_add_one]
    push_cast
    congr 1
    ring

theorem inferFields_snd (highest : Int) (fields : List StructField) :
    (inferFields highest fields).2 = countUp highest (fields.countP inferred) := by
  induction fields generalizing highest with
  | nil => simp [inferFields, countUp]
  | cons f rest ih =>
    simp only [inferFields, ih]
    cases hf : inferred f
    · simp [inferField_of_not_inferred _ _ hf, List.countP_cons, hf]
    · simp [inferField_of_inferred _ _ hf, List.countP_cons, hf, countUp_succ_left]

theorem inferFields_get (highest : Int) (fields : List StructField) (j : Nat)
    (f : StructField) (hj : fields[j]? = some f) :
    (inferFields highest fields).1[j]? =
      some (inferField (countUp highest (inferredBefore fields j)) f).1 := by
  induction fields generalizing highest j with
  | nil => simp at hj
  | cons g rest ih =>
    cases j with
    | zero =>
      simp only [List.getElem?_cons_zero, Option.some.injEq] at hj
      subst hj
      simp [inferFields, inferredBefore, countUp]
    | succ k =>
      simp only [List.getElem?_cons_succ] at hj
      simp only [inferFields, List.getElem?_cons_succ]
      rw [ih _ k hj]
      cases hg : inferred g
      · simp [inferField_of_not_inferred _ _ hg, inferredBefore, List.countP_cons, hg]
      · simp [inferField_of_inferred _ _ hg, inferredBefore, List.countP_cons, hg,
          countUp_succ_left]

theorem foldl_highest_ge (props : List Properties) (a : Int) :
    a ≤ props.foldl (fun highest prop => if prop.Tag > highest then prop.Tag else highest) a ∧
    (∀ p ∈ props,
      p.Tag ≤ props.foldl (fun highest prop => if prop.Tag > highest then prop.Tag else highest) a) ∧
    (props.foldl (fun highest prop => if prop.Tag > highest then prop.Tag else highest) a = a ∨
      ∃ p ∈ props,
        p.Tag = props.foldl (fun highest prop => if prop.Tag > highest then prop.Tag else highest) a) := by
  induction props generalizing a with
  | nil => simp
  | cons q rest ih =>
    simp only [List.foldl_cons, List.mem_cons, forall_eq_or_imp, exists_eq_or_imp]
    obtain ⟨h1, h2, h3⟩ := ih (if q.Tag > a then q.Tag else a)
    have hle : a ≤ (if q.Tag > a then q.Tag else a) ∧ q.Tag ≤ (if q.Tag > a then q.Tag else a) := by
      split_ifs <;> omega
    refine ⟨le_trans hle.1 h1, ⟨le_trans hle.2 h1, h2⟩, ?_⟩
    rcases h3 with h3 | ⟨p, hp, hpe⟩
    · by_cases hq : q.Tag > a
      · right; left
        rw [if_pos hq] at h3 ⊢
        exact h3.symm
      · left
        rw [if_neg hq] at h3 ⊢
        exact h3
    · right; right; exact ⟨p, hp, hpe⟩

theorem highestTag_nonneg (props : List Properties) : 0 ≤ highestTag props :=
  (foldl_highest_ge props 0).1

theorem minInt_le_highestTag (props : List Properties) : minInt ≤ highestTag props := by
  have h := highestTag_nonneg props
  unfold minInt
  omega

theorem le_highestTag (props : List Properties) (p : Properties) (hp : p ∈ props) :
    p.Tag ≤ highestTag props :=
  (foldl_highest_ge props 0).2.1 p hp

theorem highestTag_attained (props : List Properties) :
    highestTag props = 0 ∨ ∃ p ∈ props, p.Tag = highestTag props :=
  (foldl_highest_ge props 0).2.2

theorem Cache.empty_canonical : Cache.empty.Canonical := by
  intro t sp h
  simp [Cache.empty] at h

theorem parseStruct_get (t : StructType) (j : Nat) (f : StructField)
    (hj : t.Fields[j]? = some f) : (parseStruct t).Props[j]? = some (fieldProperties f) := by
  simp [parseStruct, hj]

theorem GetProperties_canonical (c : Cache) (t : StructType) (hc : c.Canonical) :
    (proto.GetProperties c t).1.Canonical := by
  unfold proto.GetProperties
  cases hct : c t with
  | some sp => simpa using hc
  | none =>
    intro u sp hu
    simp only [Cache.set] at hu
    split_ifs at hu with hut
    · simp only [Option.some.injEq] at hu
      subst hu hut
      exact ⟨by simp [parseStruct], fun j f hj _ => parseStruct_get u j f hj⟩
    · exact hc u sp hu

theorem GetProperties_entry (c : Cache) (t : StructType) :
    (proto.GetProperties c t).1 t = some (proto.GetProperties c t).2 := by
  unfold proto.GetProperties
  cases hct : c t with
  | some sp => simpa using hct
  | none => simp [Cache.set]

theorem inferred_inferField (highest : Int) (f : StructField) :
    inferred (inferField highest f).1 = false := by
  cases hf : inferred f
  · rw [inferField_of_not_inferred _ _ hf]; exact hf
  · rw [inferField_of_inferred _ _ hf]
    have hg : StructTag.Get
        (synthTag (wireOf f.Typ.kind) (wrapInt (highest + 1)) (derivedName f))
        "protobuf" ≠ "" := by
      rw [(synthTag_get _ _ _).1]
      exact synthValue_ne_empty _ _ _
    simp [inferred, untagged, hg]

theorem inferFields_not_inferred (highest : Int) (fields : List StructField) :
    ∀ g ∈ (inferFields highest fields).1, inferred g = false := by
  induction fields generalizing highest with
  | nil => simp [inferFields]
  | cons f rest ih =>
    intro g hg
    simp only [inferFields, List.mem_cons] at hg
    rcases hg with hg | hg
    · subst hg; exact inferred_inferField _ _
    · exact ih _ g hg

theorem canonical_props_eq_map (c : Cache) (s : StructType) (sp : StructProperties)
    (hc : c.Canonical) (hs : c s = some sp) (hall : ∀ g ∈ s.Fields, inferred g = false) :
    sp.Props = s.Fields.map fieldProperties := by
  obtain ⟨hlen, hget⟩ := hc s sp hs
  apply List.ext_getElem?
  intro n
  cases hn : s.Fields[n]? with
  | some g =>
    rw [hget n g hn (hall g (List.getElem?_mem hn))]
    simp [hn]
  | none =>
    have h1 : s.Fields.length ≤ n := List.getElem?_eq_none_iff.mp hn
    rw [List.getElem?_eq_none (by omega)]
    simp [hn]

theorem protoGetProperties_Props_eq (c : Cache) (t : StructType) (sp : StructProperties)
    (h : (protoGetProperties c t).2 = some sp) :
    sp.Props = (proto.GetProperties (proto.GetProperties c t).1
      (reflect.StructOf (inferFields (highestTag (proto.GetProperties c t).2.Props)
        t.Fields).1)).2.Props := by
  unfold protoGetProperties at h
  simp only [] at h
  split_ifs at h
  · simp only [Option.some.injEq] at h; subst h; rfl
  · simp only [Option.some.injEq] at h; subst h; rfl
  · split at h
    · simp only [Option.some.injEq] at h; subst h; rfl
    · simp at h
    · split at h
      · simp at h
      · simp only [Option.some.injEq] at h; subst h; rfl

theorem protoGetProperties_Props (c : Cache) (t : StructType) (sp : StructProperties)
    (hc : c.Canonical) (h : (protoGetProperties c t).2 = some sp) :
    sp.Props = (inferFields (highestTag (proto.GetProperties c t).2.Props)
      t.Fields).1.map fieldProperties := by
  rw [protoGetProperties_Props_eq c t sp h]
  have h1 := GetProperties_canonical c t hc
  have h2 := GetProperties_canonical _ (reflect.StructOf (inferFields (highestTag
    (proto.GetProperties c t).2.Props) t.Fields).1) h1
  exact canonical_props_eq_map _ _ _ h2 (GetProperties_entry _ _)
    (inferFields_not_inferred _ _)

theorem protoGetProperties_table (c : Cache) (t : StructType) :
    (protoGetProperties c t).1 =
      (proto.GetProperties (proto.GetProperties c t).1
        (reflect.StructOf (inferFields (highestTag (proto.GetProperties c t).2.Props)
          t.Fields).1)).1.set t
        { (proto.GetProperties c t).2 with
          Props := (proto.GetProperties (proto.GetProperties c t).1
            (reflect.StructOf (inferFields (highestTag (proto.GetProperties c t).2.Props)
              t.Fields).1)).2.Props } := by
  unfold protoGetProperties
  simp only []
  split_ifs
  · rfl
  · rfl
  · split
    · rfl
    · rfl
    · split <;> rfl

/-- The table stays canonical across a call of `protoGetProperties`, so every
table reached from the empty one by calls of `proto.GetProperties` and
`protoGetProperties` is canonical. -/
theorem protoGetProperties_canonical (c : Cache) (t : StructType) (hc : c.Canonical) :
    (protoGetProperties c t).1.Canonical := by
  rw [protoGetProperties_table]
  have h1 := GetProperties_canonical c t hc
  have h2 := GetProperties_canonical _ (reflect.StructOf (inferFields (highestTag
    (proto.GetProperties c t).2.Props) t.Fields).1) h1
  have hp := canonical_props_eq_map _ _ _ h2 (GetProperties_entry _ _)
    (inferFields_not_inferred _ _)
  intro u sp hu
  simp only [Cache.set] at hu
  split_ifs at hu with hut
  · simp only [Option.some.injEq] at hu
    subst hu hut
    simp only [hp]
    refine ⟨by simp [reflect.StructOf, inferFields_length], ?_⟩
    intro j f hj hf
    simp only [reflect.StructOf, List.getElem?_map, inferFields_get _ _ j f hj,
      inferField_of_not_inferred _ _ hf, Option.map_some']
  · exact h2 u sp hu

/-- C2, at the failing input `struct T { Foo int }`: the canonical parser is
queried for the type, which leaves its property set object in the table with
the tag numbers [0]; after `protoGetProperties` the same object holds the tag
numbers [1], so a later query of the canonical parser for the type sees the
inferred tag. -/
theorem protoGetProperties_overwrites_cached :
    ((proto.GetProperties Cache.empty structFoo).1 structFoo).map tagsOf = some [0] ∧
    ((protoGetProperties (proto.GetProperties Cache.empty structFoo).1 structFoo).1
        structFoo).map tagsOf = some [1] ∧
    (proto.GetProperties
        (protoGetProperties (proto.GetProperties Cache.empty structFoo).1 structFoo).1
        structFoo).2 ≠
      (proto.GetProperties Cache.empty structFoo).2 := by
  decide

/-- C3, at the failing input `struct T { Foo int }`: the first call of
`protoGetProperties` returns the tag numbers [1] and the second call, on the
table the first call left, returns [2]. -/
theorem protoGetProperties_twice_differs :
    (protoGetProperties Cache.empty structFoo).2.map tagsOf = some [1] ∧
    (protoGetProperties (protoGetProperties Cache.empty structFoo).1 structFoo).2.map tagsOf =
      some [2] := by
  decide

theorem base_entry_not_inferred (c : Cache) (t : StructType) (j : Nat) (f : StructField)
    (hc : c.Canonical) (hj : t.Fields[j]? = some f) (hf : inferred f = false) :
    (proto.GetProperties c t).2.Props[j]? = some (fieldProperties f) :=
  (GetProperties_canonical c t hc t _ (GetProperties_entry c t)).2 j f hj hf

theorem result_entry (c : Cache) (t : StructType) (sp : StructProperties) (j : Nat)
    (f : StructField) (hc : c.Canonical) (h : (protoGetProperties c t).2 = some sp)
    (hj : t.Fields[j]? = some f) :
    sp.Props[j]? = some (fieldProperties (inferField
      (countUp (highestTag (proto.GetProperties c t).2.Props) (inferredBefore t.Fields j))
      f).1) := by
  rw [protoGetProperties_Props c t sp hc h, List.getElem?_map, inferFields_get _ _ j f hj]
  rfl

theorem result_entry_not_inferred (c : Cache) (t : StructType) (sp : StructProperties)
    (j : Nat) (f : StructField) (hc : c.Canonical) (h : (protoGetProperties c t).2 = some sp)
    (hj : t.Fields[j]? = some f) (hf : inferred f = false) :
    sp.Props[j]? = some (fieldProperties f) := by
  rw [result_entry c t sp j f hc h hj, inferField_of_not_inferred _ _ hf]

theorem result_entry_counted (c : Cache) (t : StructType) (sp : StructProperties)
    (j : Nat) (f : StructField) (hc : c.Canonical) (h : (protoGetProperties c t).2 = some sp)
    (hj : t.Fields[j]? = some f) (hf : inferred f = true) (hw : wireOf f.Typ.kind ≠ "") :
    ∃ p, sp.Props[j]? = some p ∧
      p.Tag = countUp (highestTag (proto.GetProperties c t).2.Props)
        (inferredBefore t.Fields j + 1) ∧
      p.Wire = wireOf f.Typ.kind ∧ p.Name = f.Name := by
  refine ⟨_, result_entry c t sp j f hc h hj, ?_⟩
  rw [inferField_of_inferred _ _ hf, countUp_succ]
  exact fieldProperties_synth f f.Typ.kind _ (derivedName f) hw
    (wrapInt_range _).1 (wrapInt_range _).2

theorem result_tag_counted (c : Cache) (t : StructType) (sp : StructProperties)
    (j : Nat) (f : StructField) (hc : c.Canonical) (h : (protoGetProperties c t).2 = some sp)
    (hj : t.Fields[j]? = some f) (hf : inferred f = true) (hw : wireOf f.Typ.kind ≠ "") :
    (sp.Props[j]?).map (fun p => p.Tag) =
      some (countUp (highestTag (proto.GetProperties c t).2.Props)
        (inferredBefore t.Fields j + 1)) := by
  obtain ⟨p, hp, htag, _⟩ := result_entry_counted c t sp j f hc h hj hf hw
  rw [hp, Option.map_some', htag]

theorem result_entry_inferred_unknown (c : Cache) (t : StructType) (sp : StructProperties)
    (j : Nat) (f : StructField) (hc : c.Canonical) (h : (protoGetProperties c t).2 = some sp)
    (hj : t.Fields[j]? = some f) (hf : inferred f = true) (hw : wireOf f.Typ.kind = "") :
    sp.Props[j]? = some { Name := f.Name, OrigName := f.Name } := by
  rw [result_entry c t sp j f hc h hj, inferField_of_inferred _ _ hf,
    fieldProperties_synth_unknown f f.Typ.kind _ _ hw]

theorem props_length (c : Cache) (t : StructType) (sp : StructProperties)
    (hc : c.Canonical) (h : (protoGetProperties c t).2 = some sp) :
    sp.Props.length = t.Fields.length := by
  rw [protoGetProperties_Props c t sp hc h, List.length_map, inferFields_length]

theorem inferredBefore_lt (fields : List StructField) (i j : Nat) (f : StructField)
    (hi : fields[i]? = some f) (hf : inferred f = true) (hij : i < j) :
    inferredBefore fields i < inferredBefore fields j := by
  have h1 : inferredBefore fields (i + 1) = inferredBefore fields i + 1 := by
    simp [inferredBefore, List.take_succ, hi, List.countP_append, List.countP_cons, hf]
  have h2 : inferredBefore fields (i + 1) ≤ inferredBefore fields j := by
    unfold inferredBefore
    exact List.Sublist.countP_le _ (List.take_sublist_take_left _ (by omega))
  omega

theorem inferFields_entry_counted (highest : Int) (fields : List StructField) (j : Nat)
    (f : StructField) (hj : fields[j]? = some f) (hf : inferred f = true) :
    (inferFields highest fields).1[j]? =
      some { f with
        Tag := synthTag (wireOf f.Typ.kind)
          (countUp highest (inferredBefore fields j + 1)) (derivedName f) } := by
  rw [inferFields_get _ _ j f hj, inferField_of_inferred _ _ hf, countUp_succ]

theorem countUp_eq_add_iff (highest : Int) (k : Nat) (h0 : minInt ≤ highest) :
    countUp highest (k + 1) = highest + ((k + 1 : Nat) : Int) ↔
      highest + ((k + 1 : Nat) : Int) ≤ maxInt := by
  constructor
  · intro h
    rw [← h]
    exact (wrapInt_range _).2
  · exact countUp_eq_add highest (k + 1) h0

theorem inferredBefore_le (fields : List StructField) (j : Nat) :
    inferredBefore fields j ≤ j := by
  unfold inferredBefore
  exact le_trans (List.countP_le_length _) (List.length_take_le _ _)

theorem Atoi_range (s : String) :
    minInt ≤ (strconv.Atoi s).1 ∧ (strconv.Atoi s).1 ≤ maxInt := by
  unfold strconv.Atoi
  cases parseDecimal s with
  | none => exact ⟨by decide, by decide⟩
  | some n =>
    simp only []
    split_ifs with h1 h2
    · exact ⟨by decide, by decide⟩
    · exact ⟨by decide, by decide⟩
    · exact ⟨by omega, by omega⟩

theorem Parse_Tag_range (p : Properties) (s : String)
    (hp : minInt ≤ p.Tag ∧ p.Tag ≤ maxInt) :
    minInt ≤ (p.Parse s).Tag ∧ (p.Parse s).Tag ≤ maxInt := by
  unfold Properties.Parse
  split
  · split
    · exact hp
    · split
      · rw [parseOptions_Tag]
        exact Atoi_range _
      · exact Atoi_range _
  · exact hp

theorem fieldProperties_Tag_range (f : StructField) :
    minInt ≤ (fieldProperties f).Tag ∧ (fieldProperties f).Tag ≤ maxInt := by
  have h0 : minInt ≤ (0 : Int) ∧ (0 : Int) ≤ maxInt := ⟨by decide, by decide⟩
  unfold fieldProperties Properties.init
  simp only []
  split_ifs <;> first | exact h0 | exact Parse_Tag_range _ _ h0

/-- C4, counterexample: in the type with a field tagged 9223372036854775807
and the untagged field `Foo`, `highestTag` is 9223372036854775807 and `Foo` is
the first field receiving inferred metadata, yet the number written into its
synthesized tag and returned for it is -9223372036854775808, not
highestTag + 1; and in the type with a field tagged 5 and the untagged field
`Small` of kind Int8, the synthesized tag of `Small` carries the number 6 while
the returned property set gives it the tag number 0. -/
theorem inferred_tag_wraps_or_vanishes :
    topThenFoo.Fields[1]? = some fieldFoo ∧ inferred fieldFoo = true ∧
    highestTag (proto.GetProperties Cache.empty topThenFoo).2.Props + 1 =
      9223372036854775808 ∧
    (inferFields (highestTag (proto.GetProperties Cache.empty topThenFoo).2.Props)
        topThenFoo.Fields).1[1]? =
      some { fieldFoo with Tag := synthTag "varint" (-9223372036854775808) "foo" } ∧
    (protoGetProperties Cache.empty topThenFoo).2 = some (returned Cache.empty topThenFoo) ∧
    tagsOf (returned Cache.empty topThenFoo) =
      [9223372036854775807, -9223372036854775808] ∧
    taggedAndSmall.Fields[1]? = some fieldSmall ∧ inferred fieldSmall = true ∧
    highestTag (proto.GetProperties Cache.empty taggedAndSmall).2.Props + 1 = 6 ∧
    (inferFields (highestTag (proto.GetProperties Cache.empty taggedAndSmall).2.Props)
        taggedAndSmall.Fields).1[1]? =
      some { fieldSmall with Tag := synthTag "" 6 "small" } ∧
    (protoGetProperties Cache.empty taggedAndSmall).2 =
      some (returned Cache.empty taggedAndSmall) ∧
    tagsOf (returned Cache.empty taggedAndSmall) = [5, 0] := by
  decide

/-- C4, amended: with `highestTag` the highest tag number of the base-parsed
properties (at least every base tag, and 0 or attained), the field at position
`j` that receives inferred metadata and is the i-th such field in declaration
order (i is one more than the number of such fields before it) is assigned the
synthesized tag whose number is the `int` counter after i increments from
highestTag. That number is highestTag + i exactly when highestTag + i is at
most 9223372036854775807, and it is highestTag + i wrapped around into the
range of `int` whenever highestTag is in that range. On every canonical table
the returned property set records the number as the tag number of the field
when the kind of the field has a wire encoding, and records the tag number 0
with an empty wire encoding when it has none. -/
theorem inferred_tag_is_highest_plus_rank (c : Cache) (t : StructType) (j : Nat)
    (f : StructField) (hj : t.Fields[j]? = some f) (hf : inferred f = true) :
    (∀ p ∈ (proto.GetProperties c t).2.Props,
      p.Tag ≤ highestTag (proto.GetProperties c t).2.Props) ∧
    (highestTag (proto.GetProperties c t).2.Props = 0 ∨
      ∃ p ∈ (proto.GetProperties c t).2.Props,
        p.Tag = highestTag (proto.GetProperties c t).2.Props) ∧
    (inferFields (highestTag (proto.GetProperties c t).2.Props) t.Fields).1[j]? =
      some { f with
        Tag := synthTag (wireOf f.Typ.kind)
          (countUp (highestTag (proto.GetProperties c t).2.Props)
            (inferredBefore t.Fields j + 1))
          (derivedName f) } ∧
    (countUp (highestTag (proto.GetProperties c t).2.Props) (inferredBefore t.Fields j + 1) =
        highestTag (proto.GetProperties c t).2.Props +
          ((inferredBefore t.Fields j + 1 : Nat) : Int) ↔
      highestTag (proto.GetProperties c t).2.Props +
        ((inferredBefore t.Fields j + 1 : Nat) : Int) ≤ maxInt) ∧
    (highestTag (proto.GetProperties c t).2.Props ≤ maxInt →
      countUp (highestTag (proto.GetProperties c t).2.Props) (inferredBefore t.Fields j + 1) =
        wrapInt (highestTag (proto.GetProperties c t).2.Props +
          ((inferredBefore t.Fields j + 1 : Nat) : Int))) ∧
    (c.Canonical → ∀ sp, (protoGetProperties c t).2 = some sp →
      (wireOf f.Typ.kind ≠ "" →
        (sp.Props[j]?).map (fun p => p.Tag) =
          some (countUp (highestTag (proto.GetProperties c t).2.Props)
            (inferredBefore t.Fields j + 1))) ∧
      (wireOf f.Typ.kind = "" →
        sp.Props[j]? = some { Name := f.Name, OrigName := f.Name })) :=
  ⟨fun p hp => le_highestTag _ p hp, highestTag_attained _,
    inferFields_entry_counted _ _ j f hj hf,
    countUp_eq_add_iff _ _ (minInt_le_highestTag _),
    fun hhi => countUp_eq_wrap _ _ (minInt_le_highestTag _) hhi,
    fun hc sp h =>
      ⟨fun hw => result_tag_counted c t sp j f hc h hj hf hw,
        fun hw => result_entry_inferred_unknown c t sp j f hc h hj hf hw⟩⟩

/-- Scenario C, third field: the type has one field tagged 5 and two untagged
fields; the instance of the statement for the second untagged field, whose
counter value is 5 + 2 = 7, and the tag numbers returned for the whole type,
5, 6 and 7. -/
theorem scenarioC_tags :
    scenarioC.Fields[2]? = some fieldQux ∧ inferred fieldQux = true ∧
    (inferFields (highestTag (proto.GetProperties Cache.empty scenarioC).2.Props)
        scenarioC.Fields).1[2]? =
      some { fieldQux with
        Tag := synthTag (wireOf fieldQux.Typ.kind)
          (countUp (highestTag (proto.GetProperties Cache.empty scenarioC).2.Props)
            (inferredBefore scenarioC.Fields 2 + 1))
          (derivedName fieldQux) } ∧
    countUp (highestTag (proto.GetProperties Cache.empty scenarioC).2.Props)
        (inferredBefore scenarioC.Fields 2 + 1) =
      highestTag (proto.GetProperties Cache.empty scenarioC).2.Props +
        ((inferredBefore scenarioC.Fields 2 + 1 : Nat) : Int) ∧
    highestTag (proto.GetProperties Cache.empty scenarioC).2.Props +
      ((inferredBefore scenarioC.Fields 2 + 1 : Nat) : Int) = 7 ∧
    (protoGetProperties Cache.empty scenarioC).2.map tagsOf = some [5, 6, 7] :=
  ⟨by decide, by decide,
    (inferred_tag_is_highest_plus_rank Cache.empty scenarioC 2 fieldQux
      (by decide) (by decide)).2.2.1,
    (inferred_tag_is_highest_plus_rank Cache.empty scenarioC 2 fieldQux
      (by decide) (by decide)).2.2.2.1.mpr (by decide),
    by decide, by decide⟩

/-- Scenario B: three untagged fields and nothing tagged receive the tag
numbers 1, 2 and 3. -/
theorem scenarioB_tags :
    (protoGetProperties Cache.empty scenarioB).2.map tagsOf = some [1, 2, 3] := by
  decide

theorem not_inferred_of_annotated (g : StructField) (hg : annotated g = true) :
    inferred g = false := by
  simp only [annotated, decide_eq_true_eq] at hg
  simp [inferred, untagged, hg]

/-- C5, counterexample: in the type with the field `Top` that declares the
tag number 9223372036854775807 and the untagged field `Foo`, the number
inferred for `Foo` is -9223372036854775808, which is below the declared one;
and in the type with `A` declaring 5 and the untagged field `Small` of kind
Int8, the tag number returned for `Small` is 0, which is below 5. -/
theorem inferred_tag_below_declared :
    topThenFoo.Fields[0]? = some fieldTop ∧ annotated fieldTop = true ∧
    topThenFoo.Fields[1]? = some fieldFoo ∧ inferred fieldFoo = true ∧
    (fieldProperties fieldTop).Tag = 9223372036854775807 ∧
    (inferField (highestTag (proto.GetProperties Cache.empty topThenFoo).2.Props)
        fieldFoo).1.Tag = synthTag "varint" (-9223372036854775808) "foo" ∧
    (protoGetProperties Cache.empty topThenFoo).2 = some (returned Cache.empty topThenFoo) ∧
    (entryAt (returned Cache.empty topThenFoo) 1).Tag = -9223372036854775808 ∧
    ¬ ((fieldProperties fieldTop).Tag < (entryAt (returned Cache.empty topThenFoo) 1).Tag) ∧
    taggedAndSmall.Fields[0]? = some fieldA5 ∧ annotated fieldA5 = true ∧
    taggedAndSmall.Fields[1]? = some fieldSmall ∧ inferred fieldSmall = true ∧
    (fieldProperties fieldA5).Tag = 5 ∧
    (protoGetProperties Cache.empty taggedAndSmall).2 =
      some (returned Cache.empty taggedAndSmall) ∧
    (entryAt (returned Cache.empty taggedAndSmall) 1).Tag = 0 ∧
    ¬ ((fieldProperties fieldA5).Tag <
      (entryAt (returned Cache.empty taggedAndSmall) 1).Tag) := by
  decide

/-- C5, amended: on every canonical table, for every type and every order of
its fields, let n be the number that `protoGetProperties` writes into the
synthesized tag of a field receiving inferred metadata, the i-th such field:
the `int` counter after i increments from highestTag. When highestTag + i is
at most 9223372036854775807, n is strictly greater than the tag number
declared by the annotation of any field of the type, wherever that field is
declared. When highestTag is an `int` and the type has at most
9223372036854775807 fields, n is strictly greater than a declared tag number d
exactly when highestTag + i is at most 9223372036854775807 or d is below
highestTag + i - 18446744073709551616. The returned property set records n as
the tag number of the field when the kind of the field has a wire encoding,
and records the tag number 0 when it has none. -/
theorem inferred_tag_gt_declared (c : Cache) (t : StructType) (j k : Nat)
    (f g : StructField) (hc : c.Canonical)
    (hj : t.Fields[j]? = some f) (hf : inferred f = true)
    (hk : t.Fields[k]? = some g) (hg : annotated g = true) :
    (inferFields (highestTag (proto.GetProperties c t).2.Props) t.Fields).1[j]? =
      some { f with
        Tag := synthTag (wireOf f.Typ.kind)
          (countUp (highestTag (proto.GetProperties c t).2.Props)
            (inferredBefore t.Fields j + 1))
          (derivedName f) } ∧
    (highestTag (proto.GetProperties c t).2.Props +
        ((inferredBefore t.Fields j + 1 : Nat) : Int) ≤ maxInt →
      (fieldProperties g).Tag <
        countUp (highestTag (proto.GetProperties c t).2.Props)
          (inferredBefore t.Fields j + 1)) ∧
    (highestTag (proto.GetProperties c t).2.Props ≤ maxInt →
      (t.Fields.length : Int) ≤ maxInt →
      ((fieldProperties g).Tag <
          countUp (highestTag (proto.GetProperties c t).2.Props)
            (inferredBefore t.Fields j + 1) ↔
        highestTag (proto.GetProperties c t).2.Props +
            ((inferredBefore t.Fields j + 1 : Nat) : Int) ≤ maxInt ∨
          (fieldProperties g).Tag <
            highestTag (proto.GetProperties c t).2.Props +
              ((inferredBefore t.Fields j + 1 : Nat) : Int) - 18446744073709551616)) ∧
    (∀ sp, (protoGetProperties c t).2 = some sp →
      (wireOf f.Typ.kind ≠ "" →
        (sp.Props[j]?).map (fun p => p.Tag) =
          some (countUp (highestTag (proto.GetProperties c t).2.Props)
            (inferredBefore t.Fields j + 1))) ∧
      (wireOf f.Typ.kind = "" →
        sp.Props[j]? = some { Name := f.Name, OrigName := f.Name })) := by
  have hb := base_entry_not_inferred c t k g hc hk (not_inferred_of_annotated g hg)
  have hle := le_highestTag _ _ (List.getElem?_mem hb)
  have h0 := minInt_le_highestTag (proto.GetProperties c t).2.Props
  have hpos := highestTag_nonneg (proto.GetProperties c t).2.Props
  refine ⟨inferFields_entry_counted _ _ j f hj hf, ?_, ?_,
    fun sp h =>
      ⟨fun hw => result_tag_counted c t sp j f hc h hj hf hw,
        fun hw => result_entry_inferred_unknown c t sp j f hc h hj hf hw⟩⟩
  · intro hmax
    rw [countUp_eq_add _ _ h0 hmax]
    push_cast
    omega
  · intro hhi hlen
    have hr := inferredBefore_le t.Fields j
    have hjlt : j < t.Fields.length := (List.getElem?_eq_some_iff.mp hj).1
    have hrange := fieldProperties_Tag_range g
    rw [countUp_eq_wrap _ _ h0 hhi]
    unfold wrapInt
    unfold minInt maxInt at *
    push_cast at *
    omega

/-- A tagged field declared after an untagged one: the untagged field `Foo`
comes first, the field tagged 5 second, and the number inferred for `Foo`,
the counter after one increment from 5, is above 5: the returned tag numbers
are 6 and 5. -/
theorem taggedLast_tags :
    Cache.empty.Canonical ∧
    taggedLast.Fields[0]? = some fieldFoo ∧ inferred fieldFoo = true ∧
    taggedLast.Fields[1]? = some fieldA5 ∧ annotated fieldA5 = true ∧
    highestTag (proto.GetProperties Cache.empty taggedLast).2.Props +
      ((inferredBefore taggedLast.Fields 0 + 1 : Nat) : Int) ≤ maxInt ∧
    (fieldProperties fieldA5).Tag <
      countUp (highestTag (proto.GetProperties Cache.empty taggedLast).2.Props)
        (inferredBefore taggedLast.Fields 0 + 1) ∧
    (protoGetProperties Cache.empty taggedLast).2 = some (returned Cache.empty taggedLast) ∧
    tagsOf (returned Cache.empty taggedLast) = [6, 5] :=
  ⟨Cache.empty_canonical, by decide, by decide, by decide, by decide, by decide,
    (inferred_tag_gt_declared Cache.empty taggedLast 0 1 fieldFoo fieldA5
      Cache.empty_canonical (by decide) (by decide) (by decide) (by decide)).2.1 (by decide),
    by decide, by decide⟩

/-- C6, counterexample: for a type whose two fields both declare tag number
1, the call returns a property set with the tag numbers [1, 1]; for a type
with two untagged fields of kind Int8 it returns the tag numbers [0, 0]; for
the type with fields declaring 9223372036854775807 and -9223372036854775808
and the untagged field `Foo` it returns -9223372036854775808 twice; and for
the message type with `A` declaring 5, the untagged field `Foo` and a oneof
variant declaring 6, the field list holds 6 for `Foo` and the oneof mapping
holds 6 for the variant `x`. -/
theorem sameTagTwice_not_nodup :
    (protoGetProperties Cache.empty sameTagTwice).2 = some (returned Cache.empty sameTagTwice) ∧
    tagsOf (returned Cache.empty sameTagTwice) = [1, 1] ∧
    ¬ (tagsOf (returned Cache.empty sameTagTwice)).Nodup ∧
    (protoGetProperties Cache.empty twoSmall).2 = some (returned Cache.empty twoSmall) ∧
    tagsOf (returned Cache.empty twoSmall) = [0, 0] ∧
    ¬ (tagsOf (returned Cache.empty twoSmall)).Nodup ∧
    (protoGetProperties Cache.empty topLowFoo).2 = some (returned Cache.empty topLowFoo) ∧
    inferred fieldFoo = true ∧ wireOf fieldFoo.Typ.kind = "varint" ∧
    tagsOf (returned Cache.empty topLowFoo) =
      [9223372036854775807, -9223372036854775808, -9223372036854775808] ∧
    ¬ (tagsOf (returned Cache.empty topLowFoo)).Nodup ∧
    (protoGetProperties Cache.empty oneofBesideInferred).2 =
      some (returned Cache.empty oneofBesideInferred) ∧
    tagsOf (returned Cache.empty oneofBesideInferred) = [5, 6, 0] ∧
    (mapGet (returned Cache.empty oneofBesideInferred).OneofTypes "x").map
      (fun o => o.Props.Tag) = some 6 := by
  decide

/-- C6, amended: on every canonical table whose highest base tag number is an
`int`, for a type with at most 9223372036854775807 fields, take the i-th
field that receives inferred metadata and any other entry of the returned
field list, base-parsed or inferred. When the kind of the field has a wire
encoding, its returned tag number equals that of the other entry exactly when
the other entry belongs to a field that receives no inferred metadata and
whose annotation declares the number highestTag + i - 18446744073709551616,
the value of the wrapped counter; so the two differ when highestTag + i is at
most 9223372036854775807, and when the tag number of the other entry is not
negative. When the kind of the field has no wire encoding, its returned tag
number is 0 and equals that of the other entry exactly when that one is 0 as
well. The tag numbers in the oneof mapping are not compared. -/
theorem inferred_tag_unique (c : Cache) (t : StructType) (sp : StructProperties)
    (i j : Nat) (f : StructField) (p q : Properties) (hc : c.Canonical)
    (h : (protoGetProperties c t).2 = some sp)
    (hi : t.Fields[i]? = some f) (hf : inferred f = true)
    (hij : i ≠ j)
    (hp : sp.Props[i]? = some p) (hq : sp.Props[j]? = some q)
    (hhi : highestTag (proto.GetProperties c t).2.Props ≤ maxInt)
    (hlen : (t.Fields.length : Int) ≤ maxInt) :
    (wireOf f.Typ.kind ≠ "" →
      (p.Tag = q.Tag ↔
        ∃ g, t.Fields[j]? = some g ∧ inferred g = false ∧
          (fieldProperties g).Tag =
            highestTag (proto.GetProperties c t).2.Props +
              ((inferredBefore t.Fields i + 1 : Nat) : Int) - 18446744073709551616) ∧
      (highestTag (proto.GetProperties c t).2.Props +
          ((inferredBefore t.Fields i + 1 : Nat) : Int) ≤ maxInt → p.Tag ≠ q.Tag) ∧
      (0 ≤ q.Tag → p.Tag ≠ q.Tag)) ∧
    (wireOf f.Typ.kind = "" → p.Tag = 0 ∧ (p.Tag = q.Tag ↔ q.Tag = 0)) := by
  refine ⟨fun hw => ?_, fun hw => ?_⟩
  swap
  · have hp' := result_entry_inferred_unknown c t sp i f hc h hi hf hw
    rw [hp] at hp'
    simp only [Option.some.injEq] at hp'
    have h0 : p.Tag = 0 := by rw [hp']
    refine ⟨h0, ?_⟩
    rw [h0]
    exact eq_comm
  obtain ⟨p', hp', htag, _⟩ := result_entry_counted c t sp i f hc h hi hf hw
  rw [hp] at hp'
  simp only [Option.some.injEq] at hp'
  subst hp'
  have hpos := highestTag_nonneg (proto.GetProperties c t).2.Props
  have h0 := minInt_le_highestTag (proto.GetProperties c t).2.Props
  have hilt : i < t.Fields.length := (List.getElem?_eq_some_iff.mp hi).1
  have hjlt : j < t.Fields.length := by
    rw [← props_length c t sp hc h]
    exact (List.getElem?_eq_some_iff.mp hq).1
  have hri := inferredBefore_le t.Fields i
  have hrj := inferredBefore_le t.Fields j
  have hj : t.Fields[j]? = some (t.Fields[j]) := List.getElem?_eq_getElem hjlt
  rw [countUp_eq_wrap _ _ h0 hhi] at htag
  have key : p.Tag = q.Tag ↔
      (inferred t.Fields[j] = false ∧
        (fieldProperties t.Fields[j]).Tag =
          highestTag (proto.GetProperties c t).2.Props +
            ((inferredBefore t.Fields i + 1 : Nat) : Int) - 18446744073709551616) := by
    cases hg : inferred t.Fields[j]
    · have hq' := result_entry_not_inferred c t sp j _ hc h hj hg
      have hb := base_entry_not_inferred c t j _ hc hj hg
      rw [hq] at hq'
      simp only [Option.some.injEq] at hq'
      have hle := le_highestTag _ _ (List.getElem?_mem hb)
      have hrange := fieldProperties_Tag_range t.Fields[j]
      rw [htag, hq']
      unfold wrapInt
      unfold minInt maxInt at *
      push_cast at *
      simp only [true_and]
      omega
    · simp only [Bool.true_eq_false, false_and, iff_false]
      by_cases hwj : wireOf (t.Fields[j]).Typ.kind = ""
      · have hq' := result_entry_inferred_unknown c t sp j _ hc h hj hg hwj
        rw [hq] at hq'
        simp only [Option.some.injEq] at hq'
        rw [htag, hq']
        show _ ≠ (0 : Int)
        unfold wrapInt
        unfold minInt maxInt at *
        push_cast at *
        omega
      · obtain ⟨q', hq', htag', _⟩ := result_entry_counted c t sp j _ hc h hj hg hwj
        rw [hq] at hq'
        simp only [Option.some.injEq] at hq'
        subst hq'
        rw [countUp_eq_wrap _ _ h0 hhi] at htag'
        rw [htag, htag']
        have hne : inferredBefore t.Fields i ≠ inferredBefore t.Fields j := by
          rcases Nat.lt_or_gt_of_ne hij with hlt | hgt
          · have := inferredBefore_lt t.Fields i j f hi hf hlt
            omega
          · have := inferredBefore_lt t.Fields j i _ hj hg hgt
            omega
        unfold wrapInt
        unfold minInt maxInt at *
        push_cast at *
        omega
  have hrange : ∀ g, t.Fields[j]? = some g → inferred g = false → q.Tag = (fieldProperties g).Tag := by
    intro g hgj hg
    have hq' := result_entry_not_inferred c t sp j g hc h hgj hg
    rw [hq] at hq'
    simp only [Option.some.injEq] at hq'
    rw [hq']
  have main : p.Tag = q.Tag ↔
      ∃ g, t.Fields[j]? = some g ∧ inferred g = false ∧
        (fieldProperties g).Tag =
          highestTag (proto.GetProperties c t).2.Props +
            ((inferredBefore t.Fields i + 1 : Nat) : Int) - 18446744073709551616 := by
    rw [key]
    constructor
    · rintro ⟨a, b⟩
      exact ⟨_, hj, a, b⟩
    · rintro ⟨g, hgj, a, b⟩
      rw [hj] at hgj
      simp only [Option.some.injEq] at hgj
      subst hgj
      exact ⟨a, b⟩
  refine ⟨main, ?_, ?_⟩
  · intro hmax heq
    obtain ⟨g, _, _, hval⟩ := main.mp heq
    have hr := fieldProperties_Tag_range g
    unfold minInt maxInt at *
    omega
  · intro hq0 heq
    obtain ⟨g, hgj, hg, hval⟩ := main.mp heq
    rw [hrange g hgj hg] at hq0
    unfold maxInt at *
    push_cast at *
    omega

/-- Scenario C, the two inferred entries: the tag number 6 inferred for
`Foo` differs from the tag number 7 of `Qux`. -/
theorem scenarioC_inferred_unique :
    Cache.empty.Canonical ∧
    (protoGetProperties Cache.empty scenarioC).2 = some (returned Cache.empty scenarioC) ∧
    scenarioC.Fields[1]? = some fieldFoo ∧ inferred fieldFoo = true ∧
    (1 : Nat) ≠ 2 ∧
    (returned Cache.empty scenarioC).Props[1]? =
      some (entryAt (returned Cache.empty scenarioC) 1) ∧
    (returned Cache.empty scenarioC).Props[2]? =
      some (entryAt (returned Cache.empty scenarioC) 2) ∧
    highestTag (proto.GetProperties Cache.empty scenarioC).2.Props ≤ maxInt ∧
    (scenarioC.Fields.length : Int) ≤ maxInt ∧
    wireOf fieldFoo.Typ.kind ≠ "" ∧
    highestTag (proto.GetProperties Cache.empty scenarioC).2.Props +
      ((inferredBefore scenarioC.Fields 1 + 1 : Nat) : Int) ≤ maxInt ∧
    (entryAt (returned Cache.empty scenarioC) 1).Tag ≠
      (entryAt (returned Cache.empty scenarioC) 2).Tag :=
  ⟨Cache.empty_canonical, by decide, by decide, by decide, by decide, by decide, by decide,
    by decide, by decide, by decide, by decide,
    ((inferred_tag_unique Cache.empty scenarioC (returned Cache.empty scenarioC) 1 2 fieldFoo
      (entryAt (returned Cache.empty scenarioC) 1) (entryAt (returned Cache.empty scenarioC) 2)
      Cache.empty_canonical (by decide) (by decide) (by decide) (by decide) (by decide)
      (by decide) (by decide) (by decide)).1 (by decide)).2.1 (by decide)⟩

/-- C7, counterexample: the untagged field `Small int8` receives inferred
metadata, and the wire encoding written into its synthesized tag is empty,
not `varint`, although `int8` is an integer kind. -/
theorem int8_wire_empty :
    inferred fieldSmall = true ∧ fieldSmall.Typ.kind = Kind.Int8 ∧
    (inferField 0 fieldSmall).1.Tag = synthTag "" 1 "small" ∧
    (inferField 0 fieldSmall).1.Tag ≠ synthTag "varint" 1 "small" ∧
    (entryAt (returned Cache.empty structSmall) 0).Wire = "" := by
  decide

/-- C7, amended: for every field that receives inferred metadata the
synthesized tag carries the wire encoding chosen by the kind of the field
type: `varint` exactly for Bool, Int, Int32, Int64, Uint, Uint32 and Uint64;
`bytes` exactly for Map, Ptr, Slice and String; `fixed32` exactly for Float32;
`fixed64` exactly for Float64; empty for every other kind, among them Int8,
Int16, Uint8, Uint16 and Uintptr. The number in the synthesized tag is the
counter after its increment, which is highest + 1 for every `int` below
9223372036854775807. -/
theorem synthesized_wire_by_kind (highest : Int) (f : StructField)
    (hf : inferred f = true) :
    (inferField highest f).1.Tag =
      synthTag (wireOf f.Typ.kind) (wrapInt (highest + 1)) (derivedName f) ∧
    (minInt ≤ highest → highest < maxInt →
      (inferField highest f).1.Tag =
        synthTag (wireOf f.Typ.kind) (highest + 1) (derivedName f)) ∧
    (wireOf f.Typ.kind = "varint" ↔
      f.Typ.kind ∈ [Kind.Bool, Kind.Int, Kind.Int32, Kind.Int64, Kind.Uint, Kind.Uint32,
        Kind.Uint64]) ∧
    (wireOf f.Typ.kind = "bytes" ↔
      f.Typ.kind ∈ [Kind.Map, Kind.Ptr, Kind.Slice, Kind.String]) ∧
    (wireOf f.Typ.kind = "fixed32" ↔ f.Typ.kind = Kind.Float32) ∧
    (wireOf f.Typ.kind = "fixed64" ↔ f.Typ.kind = Kind.Float64) ∧
    (wireOf f.Typ.kind = "" ↔
      f.Typ.kind ∉ [Kind.Bool, Kind.Int, Kind.Int32, Kind.Int64, Kind.Uint, Kind.Uint32,
        Kind.Uint64, Kind.Map, Kind.Ptr, Kind.Slice, Kind.String, Kind.Float32,
        Kind.Float64]) := by
  refine ⟨by rw [inferField_of_inferred _ _ hf], ?_, ?_⟩
  · intro h0 h1
    rw [inferField_of_inferred _ _ hf, wrapInt_of_range _ (by omega) (by omega)]
  · generalize f.Typ.kind = k
    cases k <;> decide

/-- The field `Foo int` at counter 0: it receives inferred metadata and its
synthesized tag is `varint,1,name=foo`. -/
theorem fieldFoo_wire :
    inferred fieldFoo = true ∧
    (inferField 0 fieldFoo).1.Tag =
      synthTag (wireOf fieldFoo.Typ.kind) (0 + 1) (derivedName fieldFoo) ∧
    (inferField 0 fieldFoo).1.Tag = [("protobuf", "varint,1,name=foo")] :=
  ⟨by decide,
    (synthesized_wire_by_kind 0 fieldFoo (by decide)).2.1 (by decide) (by decide),
    by decide⟩

/-- C8, counterexample: a value without `XXX_MessageName` that has the
`Descriptor` method and is registered as x.Y gets the manually resolved name
a.b.Outer, not the name of the registry. -/
theorem described_beats_registry :
    describedAndRegistered.XXX_MessageName = none ∧
    protoMessageName describedAndRegistered = "x.Y" ∧
    messageTypeName parseScenarioA describedAndRegistered = some "a.b.Outer" ∧
    messageTypeName parseScenarioA describedAndRegistered ≠
      some (protoMessageName describedAndRegistered) := by
  decide

/-- C8, amended: `messageTypeName` returns (1) the result of
`XXX_MessageName` verbatim when the value has that method; (2) otherwise, when
the value has the `Descriptor` method, the name resolved manually from the
decoded schema and the path (a panic when decoding fails), whatever the
registry holds; (3) otherwise the result of `proto.MessageName`, the registry
name of the type or the empty string. -/
theorem messageTypeName_order (parse : List Nat → Option FileDescriptorProto)
    (msg : Message) :
    (∀ name, msg.XXX_MessageName = some name → messageTypeName parse msg = some name) ∧
    (msg.XXX_MessageName = none → ∀ gzBytes path, msg.Descriptor = some (gzBytes, path) →
      messageTypeName parse msg = (parse gzBytes).bind (fun fd => resolveManually fd path)) ∧
    (msg.XXX_MessageName = none → msg.Descriptor = none →
      messageTypeName parse msg = some (msg.Registered.getD "")) := by
  refine ⟨?_, ?_, ?_⟩
  · intro name h
    simp [messageTypeName, h]
  · intro h gzBytes path hd
    simp only [messageTypeName, h, hd]
    cases parse gzBytes <;> rfl
  · intro h hd
    simp [messageTypeName, h, hd, protoMessageName]

/-- The three strategies at concrete values: a value with the direct
accessor, the value of the counterexample, and a value with neither method. -/
theorem messageTypeName_examples :
    messageTypeName parseScenarioA ⟨some "p.M", some ([], [0]), some "x.Y"⟩ = some "p.M" ∧
    messageTypeName parseScenarioA describedAndRegistered =
      (parseScenarioA []).bind (fun fd => resolveManually fd [0]) ∧
    messageTypeName parseScenarioA ⟨none, none, some "x.Y"⟩ = some "x.Y" :=
  ⟨(messageTypeName_order parseScenarioA ⟨some "p.M", some ([], [0]), some "x.Y"⟩).1 "p.M" rfl,
    (messageTypeName_order parseScenarioA describedAndRegistered).2.1 rfl [] [0] rfl,
    (messageTypeName_order parseScenarioA ⟨none, none, some "x.Y"⟩).2.2 rfl rfl⟩

theorem splitChars_head (sep : Char) (l : List Char) :
    (splitChars sep l).headD [] = l.takeWhile (fun ch => ch ≠ sep) := by
  induction l with
  | nil => simp [splitChars]
  | cons c cs ih =>
    by_cases hc : c = sep
    · simp [splitChars, hc]
    · have hp : (fun ch => decide (ch ≠ sep)) c = true := decide_eq_true hc
      rw [@List.takeWhile_cons_of_pos _ (fun ch => decide (ch ≠ sep)) c cs hp, ← ih]
      simp only [splitChars, if_neg hc]
      cases splitChars sep cs <;> rfl

theorem split_head_eq_jsonName (f : StructField) :
    (strings.Split (f.Tag.Get "json") ',').headD "" = jsonName f := by
  unfold strings.Split jsonName
  rw [← splitChars_head]
  cases splitChars ',' (f.Tag.Get "json").data <;> rfl

/-- C9, counterexample: the untagged field `BarBaz` has the derived name
barBaz, not bar_baz, and that name is written into its synthesized tag. -/
theorem barBaz_name :
    untagged fieldBarBaz = true ∧ jsonName fieldBarBaz = "" ∧
    derivedName fieldBarBaz = "barBaz" ∧ derivedName fieldBarBaz ≠ "bar_baz" ∧
    (inferField 0 fieldBarBaz).1.Tag = [("protobuf", "bytes,1,name=barBaz")] ∧
    (entryAt (returned Cache.empty scenarioB) 1).OrigName = "barBaz" := by
  decide

/-- C9, amended: for every field that is a candidate for inference, the
derived name is the part of the `json` tag before the first comma when that
is non-empty, and otherwise the declared name with its first character in
lower case and the rest unchanged; a field whose derived name is the ignore
marker is appended unchanged and leaves the counter as it is, and every other
candidate gets the synthesized tag with the derived name and the incremented
counter, which is highest + 1 for every `int` below 9223372036854775807. -/
theorem derivedName_spec (highest : Int) (f : StructField) (hu : untagged f = true) :
    (derivedName f = if jsonName f ≠ "" then jsonName f else namer.IL f.Name) ∧
    (namer.IL f.Name).data =
      (f.Name.data.take 1).map Char.toLower ++ f.Name.data.drop 1 ∧
    (derivedName f = "-" → inferField highest f = (f, highest)) ∧
    (derivedName f ≠ "-" →
      inferField highest f =
        ({ f with
            Tag := synthTag (wireOf f.Typ.kind) (wrapInt (highest + 1)) (derivedName f) },
          wrapInt (highest + 1))) ∧
    (derivedName f ≠ "-" → minInt ≤ highest → highest < maxInt →
      inferField highest f =
        ({ f with Tag := synthTag (wireOf f.Typ.kind) (highest + 1) (derivedName f) },
          highest + 1)) := by
  refine ⟨?_, ?_, ?_, ?_, ?_⟩
  · simp only [derivedName, split_head_eq_jsonName]
    by_cases hj : jsonName f = "" <;> simp [hj]
  · unfold namer.IL
    cases hn : f.Name.data with
    | nil => simp [hn]
    | cons c cs => simp
  · intro hd
    exact inferField_of_not_inferred _ _ (by simp [inferred, hd])
  · intro hd
    exact inferField_of_inferred _ _ (by simp [inferred, hu, hd])
  · intro hd h0 h1
    rw [inferField_of_inferred _ _ (by simp [inferred, hu, hd]),
      wrapInt_of_range _ (by omega) (by omega)]

/-- The field `Name` with the tag `json:"display_name,omitempty"` takes its
name from the `json` tag, and the field `BarBaz` without one takes it from its
declared name. -/
theorem derivedName_examples :
    untagged fieldJson = true ∧
    derivedName fieldJson = (if jsonName fieldJson ≠ "" then jsonName fieldJson
      else namer.IL fieldJson.Name) ∧
    derivedName fieldJson = "display_name" ∧ derivedName fieldBarBaz = "barBaz" :=
  ⟨by decide, (derivedName_spec 0 fieldJson (by decide)).1, by decide, by decide⟩

/-- C10: on every canonical table, a field that carries a `protobuf`
annotation is appended to the field list unchanged, and its entry in the
returned property set equals the entry of the property set the canonical
parser hands back for the type, which is the entry parsed from the
annotation. -/
theorem annotated_entry_unchanged (c : Cache) (t : StructType) (sp : StructProperties)
    (j : Nat) (f : StructField) (hc : c.Canonical)
    (h : (protoGetProperties c t).2 = some sp)
    (hj : t.Fields[j]? = some f) (ha : annotated f = true) :
    (inferFields (highestTag (proto.GetProperties c t).2.Props) t.Fields).1[j]? = some f ∧
    sp.Props[j]? = (proto.GetProperties c t).2.Props[j]? ∧
    sp.Props[j]? = some (fieldProperties f) := by
  have hn := not_inferred_of_annotated f ha
  refine ⟨?_, ?_, result_entry_not_inferred c t sp j f hc h hj hn⟩
  · rw [inferFields_get _ _ j f hj, inferField_of_not_inferred _ _ hn]
  · rw [result_entry_not_inferred c t sp j f hc h hj hn,
      base_entry_not_inferred c t j f hc hj hn]

/-- Scenario C, first field: the field tagged 5 keeps its entry, with name
`A`, original name `a`, tag number 5 and wire encoding `varint`. -/
theorem scenarioC_annotated_kept :
    Cache.empty.Canonical ∧
    (protoGetProperties Cache.empty scenarioC).2 = some (returned Cache.empty scenarioC) ∧
    scenarioC.Fields[0]? = some fieldA5 ∧ annotated fieldA5 = true ∧
    ((inferFields (highestTag (proto.GetProperties Cache.empty scenarioC).2.Props)
        scenarioC.Fields).1[0]? = some fieldA5 ∧
      (returned Cache.empty scenarioC).Props[0]? =
        (proto.GetProperties Cache.empty scenarioC).2.Props[0]? ∧
      (returned Cache.empty scenarioC).Props[0]? = some (fieldProperties fieldA5)) ∧
    (fieldProperties fieldA5).Name = "A" ∧ (fieldProperties fieldA5).OrigName = "a" ∧
    (fieldProperties fieldA5).Tag = 5 ∧ (fieldProperties fieldA5).Wire = "varint" :=
  ⟨Cache.empty_canonical, by decide, by decide, by decide,
    annotated_entry_unchanged Cache.empty scenarioC (returned Cache.empty scenarioC) 0 fieldA5
      Cache.empty_canonical (by decide) (by decide) (by decide),
    by decide, by decide, by decide, by decide⟩

/-- A call on a type without the method `XXX_OneofFuncs` returns a property
set. -/
theorem protoGetProperties_returns (c : Cache) (t : StructType)
    (h : t.XXX_OneofFuncs = none) : ∃ sp, (protoGetProperties c t).2 = some sp := by
  unfold protoGetProperties
  simp only [h]
  split_ifs <;> exact ⟨_, rfl⟩

/-- Every table the program can be in is canonical. -/
theorem Cache.Reachable.canonical (c : Cache) (h : Cache.Reachable c) : c.Canonical := by
  induction h with
  | empty => exact Cache.empty_canonical
  | get c t _ ih => exact GetProperties_canonical c t ih
  | call c t _ ih => exact protoGetProperties_canonical c t ih

theorem parseStruct_intTags (t : StructType) :
    ∀ p ∈ (parseStruct t).Props, minInt ≤ p.Tag ∧ p.Tag ≤ maxInt := by
  intro p hp
  simp only [parseStruct, List.mem_map] at hp
  obtain ⟨f, _, rfl⟩ := hp
  exact fieldProperties_Tag_range f

theorem GetProperties_intTags (c : Cache) (t : StructType) (hc : c.IntTags) :
    (proto.GetProperties c t).1.IntTags ∧
      ∀ p ∈ (proto.GetProperties c t).2.Props, minInt ≤ p.Tag ∧ p.Tag ≤ maxInt := by
  unfold proto.GetProperties
  cases hct : c t with
  | some sp => exact ⟨hc, hc t sp hct⟩
  | none =>
    refine ⟨?_, parseStruct_intTags t⟩
    intro u sp hu
    simp only [Cache.set] at hu
    split_ifs at hu with hut
    · simp only [Option.some.injEq] at hu
      subst hu
      exact parseStruct_intTags t
    · exact hc u sp hu

theorem protoGetProperties_intTags (c : Cache) (t : StructType) (hc : c.IntTags) :
    (protoGetProperties c t).1.IntTags := by
  rw [protoGetProperties_table]
  have h1 := (GetProperties_intTags c t hc).1
  have h2 := GetProperties_intTags _ (reflect.StructOf (inferFields (highestTag
    (proto.GetProperties c t).2.Props) t.Fields).1) h1
  intro u sp hu
  simp only [Cache.set] at hu
  split_ifs at hu with hut
  · simp only [Option.some.injEq] at hu
    subst hu
    exact h2.2
  · exact h2.1 u sp hu

theorem Cache.Reachable.intTags (c : Cache) (h : Cache.Reachable c) : c.IntTags := by
  induction h with
  | empty => intro t sp ht; simp [Cache.empty] at ht
  | get c t _ ih => exact (GetProperties_intTags c t ih).1
  | call c t _ ih => exact protoGetProperties_intTags c t ih

/-- In every table the program can be in, the highest base tag number of
every type is in the range of `int`. -/
theorem Cache.Reachable.highestTag_le (c : Cache) (h : Cache.Reachable c) (t : StructType) :
    highestTag (proto.GetProperties c t).2.Props ≤ maxInt := by
  rcases highestTag_attained (proto.GetProperties c t).2.Props with h0 | ⟨p, hp, hpe⟩
  · rw [h0]; decide
  · rw [← hpe]
    exact ((GetProperties_intTags c t (Cache.Reachable.intTags c h)).2 p hp).2

theorem protoGetProperties_eq_fallback (c : Cache) (t : StructType) :
    (protoGetProperties c t).2 = oneofFallback t (gotBeforeFallback c t) := by
  unfold protoGetProperties oneofFallback gotBeforeFallback
  simp only []
  split_ifs
  · rfl
  · rfl
  · split
    · rfl
    · rfl
    · split <;> rfl

theorem protoGetProperties_table_got (c : Cache) (t : StructType) :
    (protoGetProperties c t).1 t = some (gotBeforeFallback c t) := by
  rw [protoGetProperties_table]
  simp [Cache.set, gotBeforeFallback]

theorem expectOneofs_iff (t : StructType) :
    expectOneofs t = true ↔ ∃ f ∈ t.Fields, f.Tag.Get "protobuf_oneof" ≠ "" := by
  simp [expectOneofs, List.any_eq_true]

/-- C11: for every type and every property set that reaches the oneof
fallback, if the property set already has oneof-group entries or no field of
the type carries a `protobuf_oneof` tag, the fallback returns that property
set itself, with the same field mapping and the same oneof mapping; for the
property set `protoGetProperties` passes on, this is what the call returns and
what the table holds for the type. -/
theorem fallback_gating (t : StructType) (got : StructProperties)
    (h : got.OneofTypes ≠ [] ∨ ∀ f ∈ t.Fields, f.Tag.Get "protobuf_oneof" = "") :
    oneofFallback t got = some got ∧
    ∀ c, got = gotBeforeFallback c t →
      (protoGetProperties c t).2 = some got ∧ (protoGetProperties c t).1 t = some got := by
  have h1 : oneofFallback t got = some got := by
    unfold oneofFallback
    rcases h with h | h
    · have : got.OneofTypes.length > 0 := List.length_pos.mpr h
      rw [if_pos this]
    · have he : expectOneofs t = false := by
        rw [Bool.eq_false_iff, ne_eq, expectOneofs_iff]
        rintro ⟨f, hf, hne⟩
        exact hne (h f hf)
      split_ifs
      · rfl
      · rfl
      · simp [he] at *
  refine ⟨h1, ?_⟩
  intro c hc
  subst hc
  exact ⟨by rw [protoGetProperties_eq_fallback, h1], protoGetProperties_table_got c t⟩

/-- The type `struct T { Foo int }` has no oneof marker field: the call
returns the property set that reaches the fallback, with the inferred field
mapping and an empty oneof mapping. -/
theorem structFoo_fallback_unchanged :
    ((gotBeforeFallback Cache.empty structFoo).OneofTypes ≠ [] ∨
      ∀ f ∈ structFoo.Fields, f.Tag.Get "protobuf_oneof" = "") ∧
    (protoGetProperties Cache.empty structFoo).2 =
      some (gotBeforeFallback Cache.empty structFoo) ∧
    tagsOf (gotBeforeFallback Cache.empty structFoo) = [1] ∧
    (gotBeforeFallback Cache.empty structFoo).OneofTypes = [] :=
  ⟨Or.inr (by decide),
    ((fallback_gating structFoo (gotBeforeFallback Cache.empty structFoo)
      (Or.inr (by decide))).2 Cache.empty rfl).1,
    by decide, by decide⟩

/-- C12: for every type with at least one field carrying a `protobuf_oneof`
tag, whose base property set has no oneof-group entries and which has no
`XXX_OneofFuncs` method, `protoGetProperties` returns a property set (it does
not panic), the one that reached the fallback, and its oneof mapping is
empty. -/
theorem no_capability_empty_oneofs (c : Cache) (t : StructType)
    (hm : ∃ f ∈ t.Fields, f.Tag.Get "protobuf_oneof" ≠ "")
    (hb : (proto.GetProperties c t).2.OneofTypes = [])
    (hf : t.XXX_OneofFuncs = none) :
    ∃ sp, (protoGetProperties c t).2 = some sp ∧ sp.OneofTypes = [] ∧
      sp = gotBeforeFallback c t := by
  refine ⟨gotBeforeFallback c t, ?_, hb, rfl⟩
  rw [protoGetProperties_eq_fallback]
  unfold oneofFallback
  have h0 : (gotBeforeFallback c t).OneofTypes = [] := hb
  have he := (expectOneofs_iff t).mpr hm
  simp [h0, he, hf]

/-- Scenario D: a type with a oneof marker field and no `XXX_OneofFuncs`
method gets a property set with an empty oneof mapping. -/
theorem scenarioD_empty_oneofs :
    (∃ f ∈ scenarioD.Fields, f.Tag.Get "protobuf_oneof" ≠ "") ∧
    (proto.GetProperties Cache.empty scenarioD).2.OneofTypes = [] ∧
    scenarioD.XXX_OneofFuncs = none ∧
    (∃ sp, (protoGetProperties Cache.empty scenarioD).2 = some sp ∧ sp.OneofTypes = [] ∧
      sp = gotBeforeFallback Cache.empty scenarioD) ∧
    (protoGetProperties Cache.empty scenarioD).2 = some (returned Cache.empty scenarioD) ∧
    (returned Cache.empty scenarioD).OneofTypes = [] ∧
    tagsOf (returned Cache.empty scenarioD) = [5, 0] :=
  ⟨⟨fieldKind, by decide, by decide⟩, by decide, by decide,
    no_capability_empty_oneofs Cache.empty scenarioD ⟨fieldKind, by decide, by decide⟩
      (by decide) (by decide),
    by decide, by decide, by decide⟩

theorem index_range_of_eq_some {α : Type} (xs : List α) (i : Int) (x : α)
    (h : index xs i = some x) : 0 ≤ i ∧ i < xs.length := by
  unfold index at h
  split_ifs at h with hneg
  have := (List.getElem?_eq_some_iff.mp h).1
  omega

theorem walkPath_eq_map (d : DescriptorProto) (chunks : List String) (path : List Int) :
    walkPath d chunks path =
      (nestedAlong d path).map (fun ts => chunks ++ ts.map DescriptorProto.GetName) := by
  induction path generalizing d chunks with
  | nil => simp [walkPath, nestedAlong]
  | cons i rest ih =>
    simp only [walkPath, nestedAlong]
    cases hi : index d.NestedType i with
    | none => rfl
    | some n =>
      simp only [ih, Option.map_map]
      congr 1
      funext ts
      simp

theorem resolveManually_eq_map (fd : FileDescriptorProto) (path : List Int) :
    resolveManually fd path = (typesAlong fd path).map (qualifiedName fd) := by
  cases path with
  | nil => rfl
  | cons p0 rest =>
    simp only [resolveManually, typesAlong]
    cases hd : index fd.MessageType p0 with
    | none => rfl
    | some d =>
      simp only [walkPath_eq_map]
      cases nestedAlong d rest with
      | none => rfl
      | some ts =>
        simp only [Option.map_some', qualifiedName, strings.Join]
        by_cases hp : fd.GetPackage = "" <;> simp [hp]

theorem nestedInRange_of_nestedAlong (d : DescriptorProto) (path : List Int)
    (ts : List DescriptorProto) (h : nestedAlong d path = some ts) :
    nestedInRange d path := by
  induction path generalizing d ts with
  | nil => trivial
  | cons i rest ih =>
    simp only [nestedAlong] at h
    cases hi : index d.NestedType i with
    | none => simp [hi] at h
    | some n =>
      simp only [hi, Option.map_eq_some'] at h
      obtain ⟨ts', hts', _⟩ := h
      obtain ⟨h0, h1⟩ := index_range_of_eq_some _ _ _ hi
      refine ⟨h0, h1, ?_⟩
      intro m hm
      rw [hi] at hm
      simp only [Option.some.injEq] at hm
      subst hm
      exact ih n ts' hts'

theorem typesAlong_isSome_iff (fd : FileDescriptorProto) (path : List Int) :
    (typesAlong fd path).isSome = true ↔ path ≠ [] ∧ pathInRange fd path := by
  constructor
  · intro h
    cases path with
    | nil => simp [typesAlong] at h
    | cons p0 rest =>
      refine ⟨by simp, ?_⟩
      simp only [typesAlong] at h
      cases hd : index fd.MessageType p0 with
      | none => simp [hd] at h
      | some d =>
        simp only [hd] at h
        obtain ⟨h0, h1⟩ := index_range_of_eq_some _ _ _ hd
        refine ⟨h0, h1, ?_⟩
        intro m hm
        rw [hd] at hm
        simp only [Option.some.injEq] at hm
        subst hm
        obtain ⟨ts, hts⟩ := Option.isSome_iff_exists.mp h
        exact nestedInRange_of_nestedAlong d rest ts hts
  · rintro ⟨hne, h⟩
    cases path with
    | nil => exact absurd rfl hne
    | cons p0 rest =>
      obtain ⟨h0, h1, hrest⟩ := h
      obtain ⟨d, hd⟩ := index_eq_some_of_range fd.MessageType p0 h0 h1
      obtain ⟨ts, hts⟩ := nestedAlong_of_inRange d rest (hrest d hd)
      simp [typesAlong, hd, hts]

/-- C13: for every decoded file descriptor and every path, the manual
resolution returns a name exactly when the path is non-empty and all its
indices are in range (the first for the top-level types, each later one for
the nested types of the type reached so far); otherwise it panics and returns
no name; and a name it returns is the name of the types the path traverses,
never of other types. -/
theorem resolveManually_some_iff (fd : FileDescriptorProto) (path : List Int) :
    ((∃ name, resolveManually fd path = some name) ↔ path ≠ [] ∧ pathInRange fd path) ∧
    (¬ (path ≠ [] ∧ pathInRange fd path) → resolveManually fd path = none) ∧
    (∀ name, resolveManually fd path = some name →
      ∃ ts, typesAlong fd path = some ts ∧ ts.length = path.length ∧
        name = qualifiedName fd ts) := by
  have hiff : (∃ name, resolveManually fd path = some name) ↔
      path ≠ [] ∧ pathInRange fd path := by
    rw [← typesAlong_isSome_iff, resolveManually_eq_map, ← Option.isSome_iff_exists,
      Option.isSome_map']
  refine ⟨hiff, ?_, ?_⟩
  · intro hn
    cases hr : resolveManually fd path with
    | none => rfl
    | some name => exact absurd (hiff.mp ⟨name, hr⟩) hn
  · intro name hname
    rw [resolveManually_eq_map] at hname
    cases hts : typesAlong fd path with
    | none => simp [hts] at hname
    | some ts =>
      simp only [hts, Option.map_some', Option.some.injEq] at hname
      refine ⟨ts, rfl, ?_, hname.symm⟩
      cases path with
      | nil => simp [typesAlong] at hts
      | cons p0 rest =>
        simp only [typesAlong] at hts
        cases hd : index fd.MessageType p0 with
        | none => simp [hd] at hts
        | some d =>
          simp only [hd] at hts
          simp [nestedAlong_length d rest ts hts]

/-- Scenario A with paths that are empty, negative, too long or out of
range: each of them panics, while [0] resolves to a.b.Outer. -/
theorem resolveManually_out_of_range :
    resolveManually scenarioA [] = none ∧ resolveManually scenarioA [-1] = none ∧
    resolveManually scenarioA [1] = none ∧ resolveManually scenarioA [0, 1] = none ∧
    resolveManually scenarioA [0, 0, 0] = none ∧
    resolveManually scenarioA [0] = some "a.b.Outer" := by
  decide

/-- C14, counterexample: for a value without `XXX_MessageName`, without the
`Descriptor` method and without a registry entry, `messageTypeName` does not
panic; it returns the empty string. -/
theorem nameless_returns_empty :
    namelessMessage.XXX_MessageName = none ∧ namelessMessage.Descriptor = none ∧
    namelessMessage.Registered = none ∧
    messageTypeName parseScenarioA namelessMessage = some "" ∧
    messageTypeName parseScenarioA namelessMessage ≠ none := by
  decide

/-- C14, amended: for every value that supports none of the three naming
capabilities, `messageTypeName` does not panic and returns the result of
`proto.MessageName`, which is the empty string. -/
theorem messageTypeName_no_capability (parse : List Nat → Option FileDescriptorProto)
    (msg : Message) (h1 : msg.XXX_MessageName = none) (h2 : msg.Registered = none)
    (h3 : msg.Descriptor = none) :
    messageTypeName parse msg = some (protoMessageName msg) ∧ protoMessageName msg = "" := by
  simp [messageTypeName, protoMessageName, h1, h2, h3]

/-- The statement for the value with none of the capabilities and a decoder
that always fails. -/
theorem messageTypeName_no_capability_example :
    namelessMessage.XXX_MessageName = none ∧ namelessMessage.Registered = none ∧
    namelessMessage.Descriptor = none ∧
    messageTypeName (fun _ => none) namelessMessage = some (protoMessageName namelessMessage) ∧
    protoMessageName namelessMessage = "" :=
  ⟨rfl, rfl, rfl, messageTypeName_no_capability (fun _ => none) namelessMessage rfl rfl rfl⟩

theorem intercalate_go_head (acc s : String) (rest : List String) (hacc : acc.data ≠ []) :
    (String.intercalate.go acc s rest).data.head? = acc.data.head? := by
  induction rest generalizing acc with
  | nil => rfl
  | cons a as ih =>
    rw [String.intercalate.go, ih (acc ++ s ++ a) (by simp [String.data_append, hacc])]
    cases hd : acc.data with
    | nil => exact absurd hd hacc
    | cons c cs => simp [String.data_append, hd]

theorem intercalate_head (s first : String) (rest : List String) (h : first.data ≠ []) :
    (s.intercalate (first :: rest)).data.head? = first.data.head? := by
  rw [String.intercalate]
  exact intercalate_go_head first s rest h

theorem typesAlong_ne_nil (fd : FileDescriptorProto) (path : List Int)
    (ts : List DescriptorProto) (h : typesAlong fd path = some ts) : ts ≠ [] := by
  cases path with
  | nil => simp [typesAlong] at h
  | cons p0 rest =>
    simp only [typesAlong] at h
    cases hd : index fd.MessageType p0 with
    | none => simp [hd] at h
    | some d =>
      simp only [hd] at h
      have := nestedAlong_length d rest ts h
      intro hnil
      rw [hnil] at this
      simp at this

theorem intercalate_go_last_sep (acc s : String) (rest : List String) (hs : s.data ≠ []) :
    (String.intercalate.go acc s rest).data.getLast? =
      (match rest.getLast? with
        | none => acc.data.getLast?
        | some a => if a.data = [] then s.data.getLast? else a.data.getLast?) := by
  induction rest generalizing acc with
  | nil => rfl
  | cons a as ih =>
    rw [String.intercalate.go, ih (acc ++ s ++ a)]
    cases as with
    | nil =>
      simp only [List.getLast?_nil, List.getLast?_singleton, String.data_append]
      by_cases ha : a.data = []
      · simp [ha, List.getLast?_append_of_ne_nil _ hs]
      · rw [if_neg ha, List.getLast?_append_of_ne_nil _ ha]
    | cons b bs =>
      have e : (b :: bs).getLast? = some ((b :: bs).getLast (by simp)) :=
        List.getLast?_eq_getLast _ _
      simp only [List.getLast?_cons_cons, e]

theorem data_eq_nil_iff (s : String) : s.data = [] ↔ s = "" := by
  constructor
  · intro h
    exact String.ext h
  · intro h
    rw [h]

theorem intercalate_leadingDot (first : String) (rest : List String) :
    leadingDot (".".intercalate (first :: rest)) = true ↔
      leadingDot first = true ∨ (first = "" ∧ rest ≠ []) := by
  simp only [leadingDot, decide_eq_true_eq]
  by_cases hf : first.data = []
  · have hfe : first = "" := (data_eq_nil_iff first).mp hf
    subst hfe
    cases rest with
    | nil => simp [String.intercalate, String.intercalate.go]
    | cons a as =>
      rw [String.intercalate, String.intercalate.go,
        intercalate_go_head _ _ _ (by simp [String.data_append])]
      simp [String.data_append]
  · rw [intercalate_head _ _ _ hf]
    have hne : first ≠ "" := fun h => hf ((data_eq_nil_iff first).mpr h)
    simp [hne]

theorem intercalate_trailingDot (before : List String) (last : String) :
    trailingDot (".".intercalate (before ++ [last])) = true ↔
      trailingDot last = true ∨ (last = "" ∧ before ≠ []) := by
  simp only [trailingDot, decide_eq_true_eq]
  cases before with
  | nil => simp [String.intercalate, String.intercalate.go]
  | cons b bs =>
    rw [List.cons_append, String.intercalate,
      intercalate_go_last_sep b "." (bs ++ [last]) (by decide)]
    rw [List.getLast?_append_of_ne_nil _ (List.cons_ne_nil last [])]
    simp only [List.getLast?_singleton]
    by_cases hl : last.data = []
    · have hle : last = "" := (data_eq_nil_iff last).mp hl
      subst hle
      simp
    · have hne : last ≠ "" := fun h => hl ((data_eq_nil_iff last).mpr h)
      simp [hl, hne]

theorem qualifiedName_outer_dots (fd : FileDescriptorProto) (outer : DescriptorProto)
    (inner : List DescriptorProto) :
    (leadingDot (qualifiedName fd (outer :: inner)) = true ↔
      leadingDot fd.GetPackage = true ∨
        (fd.GetPackage = "" ∧
          (leadingDot outer.GetName = true ∨ (outer.GetName = "" ∧ inner ≠ [])))) ∧
    (trailingDot (qualifiedName fd (outer :: inner)) = true ↔
      trailingDot ((outer :: inner).getLast (List.cons_ne_nil outer inner)).GetName = true ∨
        (((outer :: inner).getLast (List.cons_ne_nil outer inner)).GetName = "" ∧
          (fd.GetPackage ≠ "" ∨ inner ≠ []))) := by
  constructor
  · unfold qualifiedName
    by_cases hp : fd.GetPackage = ""
    · have hl : leadingDot "" = false := by decide
      simp only [hp, if_true, List.nil_append, List.map_cons, intercalate_leadingDot, hl,
        Bool.false_eq_true, false_or, true_and, ne_eq, List.map_eq_nil_iff]
    · simp only [hp, if_false, List.singleton_append, intercalate_leadingDot, false_and,
        or_false]
  · have hsplit : (outer :: inner).map DescriptorProto.GetName =
        (outer :: inner).dropLast.map DescriptorProto.GetName ++
          [((outer :: inner).getLast (List.cons_ne_nil outer inner)).GetName] := by
      conv_lhs => rw [← List.dropLast_append_getLast (List.cons_ne_nil outer inner)]
      rw [List.map_append, List.map_singleton]
    have hdrop : (outer :: inner).dropLast = [] ↔ inner = [] := by
      cases inner <;> simp
    have hnil : ∀ pre : List String,
        pre ++ (outer :: inner).dropLast.map DescriptorProto.GetName ≠ [] ↔
          (pre ≠ [] ∨ inner ≠ []) := by
      intro pre
      rw [ne_eq, List.append_eq_nil, List.map_eq_nil_iff, hdrop]
      tauto
    unfold qualifiedName
    rw [hsplit, ← List.append_assoc, intercalate_trailingDot, hnil]
    by_cases hp : fd.GetPackage = ""
    · simp [hp]
    · simp [hp]

/-- C16, counterexample: the path [0] is valid in a file with package `a`
whose type has no name, and resolves to a name with a trailing dot; the path
[0, 0] is valid in a file without package whose outer type has no name, and
resolves to a name with a leading dot. -/
theorem unnamed_type_outer_dots :
    resolveManually unnamedType [0] = some "a." ∧ trailingDot "a." = true ∧
    resolveManually unnamedOuter [0, 0] = some ".I" ∧ leadingDot ".I" = true := by
  decide

/-- C16, amended: for every decoded file descriptor and every valid path
(non-empty, all indices in range), the manual resolution returns a string
that has a leading dot exactly when the package name starts with a dot, or
the package is empty and the name of the outermost traversed type starts with
a dot or is empty while further types follow; and that has a trailing dot
exactly when the name of the terminal type ends with a dot, or is empty while
a package or an outer type precedes it. -/
theorem resolveManually_no_outer_dots (fd : FileDescriptorProto) (path : List Int)
    (hne : path ≠ []) (h : pathInRange fd path) :
    ∃ outer inner terminal name,
      typesAlong fd path = some (outer :: inner) ∧
      (outer :: inner).getLast? = some terminal ∧
      resolveManually fd path = some name ∧
      (leadingDot name = true ↔
        leadingDot fd.GetPackage = true ∨
          (fd.GetPackage = "" ∧
            (leadingDot outer.GetName = true ∨ (outer.GetName = "" ∧ inner ≠ [])))) ∧
      (trailingDot name = true ↔
        trailingDot terminal.GetName = true ∨
          (terminal.GetName = "" ∧ (fd.GetPackage ≠ "" ∨ inner ≠ []))) := by
  obtain ⟨ts, hts⟩ := Option.isSome_iff_exists.mp
    ((typesAlong_isSome_iff fd path).mpr ⟨hne, h⟩)
  cases ts with
  | nil => exact absurd rfl (typesAlong_ne_nil fd path [] hts)
  | cons outer inner =>
    exact ⟨outer, inner, (outer :: inner).getLast (List.cons_ne_nil outer inner),
      qualifiedName fd (outer :: inner), hts, List.getLast?_eq_getLast _ _,
      by rw [resolveManually_eq_map, hts]; rfl,
      (qualifiedName_outer_dots fd outer inner).1, (qualifiedName_outer_dots fd outer inner).2⟩

theorem unnamedMiddle_inRange : pathInRange unnamedMiddle [0, 0] := by
  refine ⟨by decide, by decide, ?_⟩
  intro d hd
  have : d = .mk none [.mk (some "I") []] := by
    simpa [index, unnamedMiddle] using hd.symm
  subst this
  refine ⟨by decide, by decide, ?_⟩
  intro n _
  trivial

/-- Scenario A: the path [0, 0] is valid and the resolved name
a.b.Outer.Inner has no dot at either end; and in the file with package `p`
whose outer type has no name, the valid path [0, 0] resolves to `p..I`, which
has no dot at either end although a traversed type has no name. -/
theorem scenarioA_no_outer_dots :
    ([0, 0] : List Int) ≠ [] ∧ pathInRange scenarioA [0, 0] ∧
    (∃ outer inner terminal name,
      typesAlong scenarioA [0, 0] = some (outer :: inner) ∧
      (outer :: inner).getLast? = some terminal ∧
      resolveManually scenarioA [0, 0] = some name ∧
      (leadingDot name = true ↔
        leadingDot scenarioA.GetPackage = true ∨
          (scenarioA.GetPackage = "" ∧
            (leadingDot outer.GetName = true ∨ (outer.GetName = "" ∧ inner ≠ [])))) ∧
      (trailingDot name = true ↔
        trailingDot terminal.GetName = true ∨
          (terminal.GetName = "" ∧ (scenarioA.GetPackage ≠ "" ∨ inner ≠ [])))) ∧
    resolveManually scenarioA [0, 0] = some "a.b.Outer.Inner" ∧
    leadingDot "a.b.Outer.Inner" = false ∧ trailingDot "a.b.Outer.Inner" = false ∧
    pathInRange unnamedMiddle [0, 0] ∧
    (∃ outer inner terminal name,
      typesAlong unnamedMiddle [0, 0] = some (outer :: inner) ∧
      (outer :: inner).getLast? = some terminal ∧
      resolveManually unnamedMiddle [0, 0] = some name ∧
      (leadingDot name = true ↔
        leadingDot unnamedMiddle.GetPackage = true ∨
          (unnamedMiddle.GetPackage = "" ∧
            (leadingDot outer.GetName = true ∨ (outer.GetName = "" ∧ inner ≠ [])))) ∧
      (trailingDot name = true ↔
        trailingDot terminal.GetName = true ∨
          (terminal.GetName = "" ∧ (unnamedMiddle.GetPackage ≠ "" ∨ inner ≠ [])))) ∧
    resolveManually unnamedMiddle [0, 0] = some "p..I" ∧
    leadingDot "p..I" = false ∧ trailingDot "p..I" = false :=
  ⟨by decide, scenarioA_inRange,
    resolveManually_no_outer_dots scenarioA [0, 0] (by decide) scenarioA_inRange,
    by decide, by decide, by decide, unnamedMiddle_inRange,
    resolveManually_no_outer_dots unnamedMiddle [0, 0] (by decide) unnamedMiddle_inRange,
    by decide, by decide, by decide⟩

theorem not_inferred_of_skipped (f : StructField) (h : skipped f = true) :
    inferred f = false := by
  simp only [skipped, Bool.and_eq_true, decide_eq_true_eq] at h
  simp [inferred, h.2]

theorem skipped_inferField (highest : Int) (f : StructField) (h : skipped f = false) :
    skipped (inferField highest f).1 = false := by
  cases hf : inferred f
  · rw [inferField_of_not_inferred _ _ hf]; exact h
  · have hu : untagged (inferField highest f).1 = false := by
      have := inferred_inferField highest f
      rw [inferField_of_inferred _ _ hf] at this ⊢
      have hg := (synthTag_get (wireOf f.Typ.kind) (wrapInt (highest + 1)) (derivedName f)).1
      simp [untagged, hg, synthValue_ne_empty]
    simp [skipped, hu]

theorem fieldProperties_untagged (f : StructField) (h : untagged f = true) :
    fieldProperties f = { Name := f.Name, OrigName := f.Name } := by
  simp only [untagged, Bool.and_eq_true, decide_eq_true_eq] at h
  simp [fieldProperties, Properties.init, h.1.1.1, h.1.1.2]

theorem foldl_highest_filter (fields : List StructField) (a : Int) (ha : 0 ≤ a) :
    ((fields.filter (fun f => !skipped f)).map fieldProperties).foldl
        (fun highest prop => if prop.Tag > highest then prop.Tag else highest) a =
      (fields.map fieldProperties).foldl
        (fun highest prop => if prop.Tag > highest then prop.Tag else highest) a := by
  induction fields generalizing a with
  | nil => rfl
  | cons f rest ih =>
    cases hs : skipped f
    · simp only [List.filter_cons, hs, Bool.not_false, if_true, List.map_cons, List.foldl_cons]
      apply ih
      split_ifs <;> omega
    · have hu : untagged f = true := by
        simp only [skipped, Bool.and_eq_true] at hs
        exact hs.1
      have h0 : (fieldProperties f).Tag = 0 := by rw [fieldProperties_untagged f hu]
      simp only [List.filter_cons, hs, Bool.not_true, List.map_cons, List.foldl_cons, h0]
      have hnot : ¬ ((0 : Int) > a) := by omega
      rw [if_neg hnot]
      exact ih a ha

theorem inferFields_filter (highest : Int) (fields : List StructField) :
    (inferFields highest (fields.filter (fun f => !skipped f))).1 =
        (inferFields highest fields).1.filter (fun f => !skipped f) ∧
    (inferFields highest (fields.filter (fun f => !skipped f))).2 =
        (inferFields highest fields).2 := by
  induction fields generalizing highest with
  | nil => exact ⟨rfl, rfl⟩
  | cons f rest ih =>
    cases hs : skipped f
    · have hk := skipped_inferField highest f hs
      simp only [List.filter_cons, hs, Bool.not_false, if_true, inferFields, hk]
      exact ⟨by rw [(ih _).1], (ih _).2⟩
    · have hn := inferField_of_not_inferred highest f (not_inferred_of_skipped f hs)
      simp only [List.filter_cons, hs, Bool.not_true, inferFields, hn]
      simpa using ih highest

/-- C17, counterexample: the type with the field `Top` declaring
9223372036854775807 and the untagged field `Foo` has no skipped field and one
field that receives inferred metadata; from its `highestTag`
9223372036854775807 the loop ends with the counter -9223372036854775808, not
with 9223372036854775807 plus 1. -/
theorem final_counter_wraps :
    highestTag (proto.GetProperties Cache.empty topThenFoo).2.Props = 9223372036854775807 ∧
    topThenFoo.Fields.countP skipped = 0 ∧
    topThenFoo.Fields.countP inferred = 1 ∧
    (inferFields 9223372036854775807 topThenFoo.Fields).2 = -9223372036854775808 ∧
    (inferFields 9223372036854775807 topThenFoo.Fields).2 ≠
      9223372036854775807 + (topThenFoo.Fields.countP inferred : Nat) := by
  decide

/-- C17, amended: a field that is skipped for the ignore marker consumes no
tag number. For every starting counter and field list, the skipped field is
appended unchanged and leaves the counter as it is; the loop on the list
without the skipped fields produces the same fields for the remaining
positions and ends with the same counter; the final counter is the `int`
counter after one increment for each field that receives inferred metadata,
which for a starting counter in the range of `int` is the starting counter
plus the number of those fields wrapped around into that range, and equals
the starting counter plus that number exactly when this sum is at most
9223372036854775807; and a newly parsed type has the same `highestTag` with
and without its skipped fields. -/
theorem skipped_consumes_no_tag (highest : Int) (fields : List StructField) :
    (∀ h f, skipped f = true → inferField h f = (f, h)) ∧
    (inferFields highest (fields.filter (fun f => !skipped f))).1 =
        (inferFields highest fields).1.filter (fun f => !skipped f) ∧
    (inferFields highest (fields.filter (fun f => !skipped f))).2 =
        (inferFields highest fields).2 ∧
    (inferFields highest fields).2 = countUp highest (fields.countP inferred) ∧
    (minInt ≤ highest → highest ≤ maxInt →
      (inferFields highest fields).2 = wrapInt (highest + (fields.countP inferred : Nat)) ∧
      ((inferFields highest fields).2 = highest + (fields.countP inferred : Nat) ↔
        highest + (fields.countP inferred : Nat) ≤ maxInt)) ∧
    fields.countP inferred = (fields.filter (fun f => !skipped f)).countP inferred ∧
    highestTag ((fields.filter (fun f => !skipped f)).map fieldProperties) =
        highestTag (fields.map fieldProperties) := by
  refine ⟨fun h f hs => inferField_of_not_inferred h f (not_inferred_of_skipped f hs),
    (inferFields_filter highest fields).1, (inferFields_filter highest fields).2,
    inferFields_snd highest fields, ?_, ?_, foldl_highest_filter fields 0 (le_refl 0)⟩
  · intro h0 h1
    rw [inferFields_snd highest fields]
    refine ⟨countUp_eq_wrap _ _ h0 h1, ?_, countUp_eq_add _ _ h0⟩
    intro h
    rw [← h, countUp_eq_wrap _ _ h0 h1]
    exact (wrapInt_range _).2
  · rw [List.countP_filter]
    apply List.countP_congr
    intro f _
    cases hs : skipped f
    · simp
    · simp [not_inferred_of_skipped f hs]

/-- A type with a field tagged 5, the untagged fields `Foo` and `Qux` and the
skipped field `Hidden` between them: `Foo` and `Qux` get 6 and 7, `Hidden`
gets nothing, and the counter ends at 7, which is 5 plus the two fields that
receive inferred metadata; without `Hidden` the tag numbers are the same. -/
theorem withSkipped_tags :
    skipped fieldHidden = true ∧
    (inferFields 5 withSkipped.Fields).2 =
      5 + (withSkipped.Fields.countP inferred : Nat) ∧
    (inferFields 5 withSkipped.Fields).2 = 7 ∧
    (inferFields 5 withSkipped.Fields).1.map (fun f => f.Tag) =
      [[("protobuf", "varint,5,opt,name=a")], [("protobuf", "varint,6,name=foo")],
        [("json", "-")], [("protobuf", "varint,7,name=qux")]] ∧
    tagsOf (returned Cache.empty withSkipped) = [5, 6, 0, 7] ∧
    tagsOf (returned Cache.empty scenarioC) = [5, 6, 7] :=
  ⟨by decide,
    ((skipped_consumes_no_tag 5 withSkipped.Fields).2.2.2.2.1 (by decide) (by decide)).2.mpr
      (by decide),
    by decide, by decide, by decide, by decide⟩

theorem Parse_Name (p : Properties) (s : String) : (p.Parse s).Name = p.Name := by
  unfold Properties.Parse
  split
  · split
    · rfl
    · split
      · exact parseOptions_Name _ _
      · rfl
  · rfl

theorem fieldProperties_Name (f : StructField) : (fieldProperties f).Name = f.Name := by
  unfold fieldProperties Properties.init
  simp only []
  split_ifs <;> first | rfl | exact Parse_Name _ _

theorem inferField_Name_Typ (highest : Int) (f : StructField) :
    (inferField highest f).1.Name = f.Name ∧ (inferField highest f).1.Typ = f.Typ := by
  cases hf : inferred f
  · rw [inferField_of_not_inferred _ _ hf]; exact ⟨rfl, rfl⟩
  · rw [inferField_of_inferred _ _ hf]; exact ⟨rfl, rfl⟩

theorem firstAssignable_inferFields (w : OneofWrapper) (highest : Int)
    (fields : List StructField) (ii : Int) :
    firstAssignable w (inferFields highest fields).1 ii = firstAssignable w fields ii := by
  induction fields generalizing highest ii with
  | nil => rfl
  | cons f rest ih =>
    simp only [inferFields, firstAssignable, (inferField_Name_Typ highest f).2, ih]

/-- C18: the field list from which the field mapping is re-derived has one
entry per field of the type, in declaration order, with the name and the type
of the original field, and is the original field itself unless the field
receives inferred metadata; so on every canonical table entry `j` of the
returned field mapping carries the name of field `j`, and the slot index found
for a wrapper type is the same in both field lists. -/
theorem fields_keep_positions (c : Cache) (t : StructType) (highest : Int) :
    (inferFields highest t.Fields).1.length = t.Fields.length ∧
    (∀ (j : Nat) (f : StructField), t.Fields[j]? = some f →
      ∃ g, (inferFields highest t.Fields).1[j]? = some g ∧ g.Name = f.Name ∧
        g.Typ = f.Typ ∧ (inferred f = false → g = f)) ∧
    (c.Canonical → ∀ sp, (protoGetProperties c t).2 = some sp →
      sp.Props.length = t.Fields.length ∧
        ∀ (j : Nat) (f : StructField), t.Fields[j]? = some f →
          ∃ p, sp.Props[j]? = some p ∧ p.Name = f.Name) ∧
    (∀ w, firstAssignable w (inferFields highest t.Fields).1 0 =
      firstAssignable w t.Fields 0) := by
  refine ⟨inferFields_length _ _, ?_, ?_, fun w => firstAssignable_inferFields w _ _ 0⟩
  · intro j f hj
    refine ⟨_, inferFields_get highest t.Fields j f hj, (inferField_Name_Typ _ f).1,
      (inferField_Name_Typ _ f).2, ?_⟩
    intro hf
    rw [inferField_of_not_inferred _ _ hf]
  · intro hc sp h
    refine ⟨props_length c t sp hc h, ?_⟩
    intro j f hj
    refine ⟨_, result_entry c t sp j f hc h hj, ?_⟩
    rw [fieldProperties_Name, (inferField_Name_Typ _ f).1]

/-- Scenario C: the re-derived field list has the three fields `A`, `Foo`
and `Qux` with their types, and the returned entries carry these names. -/
theorem scenarioC_positions :
    (inferFields 5 scenarioC.Fields).1.map (fun f => (f.Name, f.Typ)) =
      scenarioC.Fields.map (fun f => (f.Name, f.Typ)) ∧
    (inferFields 5 scenarioC.Fields).1.length = scenarioC.Fields.length ∧
    (returned Cache.empty scenarioC).Props.map (fun p => p.Name) = ["A", "Foo", "Qux"] :=
  ⟨by decide, (fields_keep_positions Cache.empty scenarioC 5).1, by decide⟩

theorem mapGet_cons (e : String × OneofProperties) (m : List (String × OneofProperties))
    (k : String) : mapGet (e :: m) k = if e.1 = k then some e.2 else mapGet m k := by
  unfold mapGet
  by_cases h : e.1 = k
  · simp [List.find?_cons, h]
  · simp [List.find?_cons, h]

theorem mapGet_mapSet (m : List (String × OneofProperties)) (k' k : String)
    (v : OneofProperties) :
    mapGet (mapSet m k' v) k = if k = k' then some v else mapGet m k := by
  unfold mapSet
  induction m with
  | nil =>
    rw [List.filter_nil, List.nil_append, mapGet_cons]
    by_cases hk : k = k'
    · rw [if_pos hk.symm, if_pos hk]
    · rw [if_neg (fun h => hk h.symm), if_neg hk]
  | cons e rest ih =>
    by_cases he : e.1 = k'
    · have hf : List.filter (fun e => decide (e.1 ≠ k')) (e :: rest) =
          List.filter (fun e => decide (e.1 ≠ k')) rest := by
        simp [List.filter_cons, he]
      rw [hf, ih, mapGet_cons]
      by_cases hk : k = k'
      · rw [if_pos hk, if_pos hk]
      · rw [if_neg hk, if_neg hk, if_neg (fun h => hk (h.symm.trans he))]
    · have hf : List.filter (fun e => decide (e.1 ≠ k')) (e :: rest) =
          e :: List.filter (fun e => decide (e.1 ≠ k')) rest := by
        simp [List.filter_cons, he]
      rw [hf, List.cons_append, mapGet_cons, ih, mapGet_cons]
      by_cases hek : e.1 = k
      · rw [if_pos hek, if_neg (fun h => he (hek.trans h)), if_pos hek]
      · rw [if_neg hek, if_neg hek]

theorem oneofEntry_eq (t : StructType) (w : OneofWrapper) (k : String)
    (v : OneofProperties) (h : oneofEntry t w = some (k, v)) :
    ∃ realField, w.Field0 = some realField ∧ k = (wrappedProps realField).OrigName ∧
      v = { Typ := w.Typ, Field := (firstAssignable w t.Fields 0).getD 0,
            Props := wrappedProps realField } := by
  unfold oneofEntry at h
  cases hf : w.Field0 with
  | none => simp [hf] at h
  | some realField =>
    simp only [hf, Option.some.injEq, Prod.mk.injEq] at h
    exact ⟨realField, rfl, h.1.symm, h.2.symm⟩

theorem buildOneofs_append (t : StructType) (pre post : List OneofWrapper)
    (m : List (String × OneofProperties)) :
    buildOneofs t (pre ++ post) m = (buildOneofs t pre m).bind (buildOneofs t post) := by
  induction pre generalizing m with
  | nil => rfl
  | cons w rest ih =>
    simp only [List.cons_append, buildOneofs]
    cases oneofEntry t w with
    | none => rfl
    | some e => exact ih _

theorem buildOneofs_keeps (t : StructType) (ws : List OneofWrapper)
    (m m' : List (String × OneofProperties)) (k : String)
    (h : buildOneofs t ws m = some m')
    (hk : ∀ w ∈ ws, ∀ k' v', oneofEntry t w = some (k', v') → k' ≠ k) :
    mapGet m' k = mapGet m k := by
  induction ws generalizing m with
  | nil =>
    simp only [buildOneofs, Option.some.injEq] at h
    rw [h]
  | cons w rest ih =>
    simp only [buildOneofs] at h
    cases he : oneofEntry t w with
    | none => simp [he] at h
    | some e =>
      obtain ⟨k', v'⟩ := e
      simp only [he] at h
      rw [ih _ h (fun w' hw' => hk w' (List.mem_cons_of_mem _ hw')), mapGet_mapSet]
      have hne : k' ≠ k := hk w (List.mem_cons_self _ _) k' v' he
      rw [if_neg (fun h => hne h.symm)]

theorem buildOneofs_isSome (t : StructType) (ws : List OneofWrapper)
    (m m' : List (String × OneofProperties)) (k : String)
    (h : buildOneofs t ws m = some m') (hk : (mapGet m k).isSome = true) :
    (mapGet m' k).isSome = true := by
  induction ws generalizing m with
  | nil =>
    simp only [buildOneofs, Option.some.injEq] at h
    rw [← h]; exact hk
  | cons w rest ih =>
    simp only [buildOneofs] at h
    cases he : oneofEntry t w with
    | none => simp [he] at h
    | some e =>
      obtain ⟨k', v'⟩ := e
      simp only [he] at h
      apply ih _ h
      rw [mapGet_mapSet]
      split_ifs
      · rfl
      · exact hk

theorem buildOneofs_source (t : StructType) (ws : List OneofWrapper)
    (m m' : List (String × OneofProperties)) (k : String) (v : OneofProperties)
    (h : buildOneofs t ws m = some m') (hv : mapGet m' k = some v) :
    mapGet m k = some v ∨ ∃ w ∈ ws, oneofEntry t w = some (k, v) := by
  induction ws generalizing m with
  | nil =>
    simp only [buildOneofs, Option.some.injEq] at h
    left; rw [h]; exact hv
  | cons w rest ih =>
    simp only [buildOneofs] at h
    cases he : oneofEntry t w with
    | none => simp [he] at h
    | some e =>
      obtain ⟨k', v'⟩ := e
      simp only [he] at h
      rcases ih _ h with h1 | ⟨w', hw', hw'e⟩
      · rw [mapGet_mapSet] at h1
        split_ifs at h1 with hkk
        · simp only [Option.some.injEq] at h1
          right
          exact ⟨w, List.mem_cons_self _ _, by rw [he, hkk, h1]⟩
        · left; exact h1
      · right
        exact ⟨w', List.mem_cons_of_mem _ hw', hw'e⟩

theorem buildOneofs_entry (t : StructType) (pre post : List OneofWrapper) (w : OneofWrapper)
    (m m' : List (String × OneofProperties))
    (h : buildOneofs t (pre ++ w :: post) m = some m') :
    ∃ k v, oneofEntry t w = some (k, v) ∧ (mapGet m' k).isSome = true ∧
      ((∀ w' ∈ post, ∀ k' v', oneofEntry t w' = some (k', v') → k' ≠ k) →
        mapGet m' k = some v) := by
  rw [buildOneofs_append] at h
  cases h1 : buildOneofs t pre m with
  | none => simp [h1] at h
  | some m1 =>
    simp only [h1, Option.some_bind, buildOneofs] at h
    cases he : oneofEntry t w with
    | none => simp [he] at h
    | some e =>
      obtain ⟨k, v⟩ := e
      simp only [he] at h
      have hset : mapGet (mapSet m1 k v) k = some v := by
        rw [mapGet_mapSet, if_pos rfl]
      refine ⟨k, v, rfl, buildOneofs_isSome t post _ m' k h (by rw [hset]; rfl), ?_⟩
      intro hpost
      rw [buildOneofs_keeps t post _ m' k h hpost, hset]

theorem index_cons {α : Type} (x : α) (xs : List α) (i : Int) :
    index (x :: xs) i = if i = 0 then some x else index xs (i - 1) := by
  unfold index
  by_cases h0 : i = 0
  · subst h0; simp
  · rw [if_neg h0]
    by_cases hneg : i < 0
    · rw [if_pos hneg, if_pos (by omega)]
    · rw [if_neg hneg, if_neg (by omega)]
      have e : i.toNat = (i - 1).toNat + 1 := by omega
      rw [e, List.getElem?_cons_succ]

theorem firstAssignable_spec (w : OneofWrapper) (fields : List StructField) (ii i : Int) :
    firstAssignable w fields ii = some i ↔
      (∃ f, index fields (i - ii) = some f ∧ w.AssignableTo f.Typ = true) ∧
        ∀ (j : Int) (g : StructField), j < i - ii → index fields j = some g →
          w.AssignableTo g.Typ = false := by
  induction fields generalizing ii with
  | nil => simp [firstAssignable, index]
  | cons f rest ih =>
    simp only [firstAssignable]
    by_cases ha : w.AssignableTo f.Typ = true
    · rw [if_pos ha]
      constructor
      · intro h
        simp only [Option.some.injEq] at h
        subst h
        refine ⟨⟨f, by simp [index_cons], ha⟩, ?_⟩
        intro j g hj hg
        have : index (f :: rest) j = none := by
          unfold index
          rw [if_pos (by omega)]
        rw [this] at hg
        simp at hg
      · rintro ⟨⟨f', hf', _⟩, hall⟩
        obtain ⟨h0, _⟩ := index_range_of_eq_some _ _ _ hf'
        by_cases hz : i - ii = 0
        · have : ii = i := by omega
          rw [this]
        · have hpos : 0 < i - ii := by omega
          have := hall 0 f hpos (by simp [index_cons])
          rw [this] at ha
          simp at ha
    · rw [if_neg ha, ih (ii + 1)]
      have hfalse : w.AssignableTo f.Typ = false := by simpa using ha
      constructor
      · rintro ⟨⟨f', hf', hf'a⟩, hall⟩
        obtain ⟨h0, _⟩ := index_range_of_eq_some _ _ _ hf'
        refine ⟨⟨f', ?_, hf'a⟩, ?_⟩
        · rw [index_cons, if_neg (by omega)]
          have : i - ii - 1 = i - (ii + 1) := by omega
          rw [this]; exact hf'
        · intro j g hj hg
          rw [index_cons] at hg
          split_ifs at hg with hj0
          · simp only [Option.some.injEq] at hg
            rw [← hg]; exact hfalse
          · exact hall (j - 1) g (by omega) hg
      · rintro ⟨⟨f', hf', hf'a⟩, hall⟩
        rw [index_cons] at hf'
        split_ifs at hf' with hz
        · simp only [Option.some.injEq] at hf'
          rw [← hf'] at hf'a
          rw [hf'a] at hfalse
          simp at hfalse
        · refine ⟨⟨f', ?_, hf'a⟩, ?_⟩
          · have : i - (ii + 1) = i - ii - 1 := by omega
            rw [this]; exact hf'
          · intro j g hj hg
            obtain ⟨h0, _⟩ := index_range_of_eq_some _ _ _ hg
            apply hall (j + 1) g (by omega)
            rw [index_cons, if_neg (by omega)]
            have : j + 1 - 1 = j := by omega
            rw [this]; exact hg

theorem firstAssignable_iff (w : OneofWrapper) (fields : List StructField) (i : Int) :
    firstAssignable w fields 0 = some i ↔ FirstAssignableAt w fields i := by
  rw [firstAssignable_spec]
  simp [FirstAssignableAt]

theorem firstAssignable_eq_none (w : OneofWrapper) (fields : List StructField) (ii : Int) :
    firstAssignable w fields ii = none ↔ ∀ f ∈ fields, w.AssignableTo f.Typ = false := by
  induction fields generalizing ii with
  | nil => simp [firstAssignable]
  | cons f rest ih =>
    simp only [firstAssignable, List.mem_cons, forall_eq_or_imp]
    by_cases ha : w.AssignableTo f.Typ = true
    · simp [ha]
    · have hfalse : w.AssignableTo f.Typ = false := by simpa using ha
      rw [if_neg ha, ih]
      simp [hfalse]

theorem FirstAssignableAt_unique (w : OneofWrapper) (fields : List StructField) (i j : Int)
    (hi : FirstAssignableAt w fields i) (hj : FirstAssignableAt w fields j) : i = j := by
  have h1 := (firstAssignable_iff w fields i).mpr hi
  have h2 := (firstAssignable_iff w fields j).mpr hj
  rw [h1] at h2
  exact Option.some.inj h2

theorem fallback_runs (t : StructType) (got sp : StructProperties)
    (ws : List OneofWrapper) (hb : got.OneofTypes = [])
    (hm : ∃ f ∈ t.Fields, f.Tag.Get "protobuf_oneof" ≠ "")
    (hf : t.XXX_OneofFuncs = some (some ws)) (h : oneofFallback t got = some sp) :
    sp.Props = got.Props ∧ buildOneofs t ws [] = some sp.OneofTypes := by
  unfold oneofFallback at h
  have he := (expectOneofs_iff t).mpr hm
  simp only [hb, List.length_nil, gt_iff_lt, lt_self_iff_false, if_false, he,
    Bool.not_true, Bool.false_eq_true, hf] at h
  cases hbuild : buildOneofs t ws [] with
  | none => simp [hbuild] at h
  | some m =>
    simp only [hbuild, Option.some.injEq] at h
    subst h
    exact ⟨rfl, rfl⟩

theorem later_keys_ne (t : StructType) (post : List OneofWrapper) (k : String)
    (h : ∀ w ∈ post, ∀ f, w.Field0 = some f → (wrappedProps f).OrigName ≠ k) :
    ∀ w ∈ post, ∀ k' v', oneofEntry t w = some (k', v') → k' ≠ k := by
  intro w hw k' v' he
  obtain ⟨f, hf, hk, _⟩ := oneofEntry_eq t w k' v' he
  rw [hk]
  exact h w hw f hf

/-- C15, counterexample: with the variants `X` and `Y` whose wrapped fields
both have the original name `x`, the fallback runs and the returned oneof
mapping holds under `x` the entry of `Y`, so the variant `X` has no entry
recording its wrapper type; and for a variant whose wrapper type no field of
the outer type can hold, the recorded slot index is 0 although the wrapper
type is assignable to no field. -/
theorem clashing_variant_overwritten :
    (proto.GetProperties Cache.empty clashingVariants).2.OneofTypes = [] ∧
    clashingVariants.XXX_OneofFuncs =
      some (some [kindWrapper "X" "bytes,1,opt,name=x,oneof",
        kindWrapper "Y" "bytes,2,opt,name=x,oneof"]) ∧
    (protoGetProperties Cache.empty clashingVariants).2 =
      some (returned Cache.empty clashingVariants) ∧
    (oneofEntry clashingVariants (kindWrapper "X" "bytes,1,opt,name=x,oneof")).map
      (fun e => (e.1, e.2.Typ.id)) = some ("x", "*Msg_X") ∧
    (mapGet (returned Cache.empty clashingVariants).OneofTypes "x").map
      (fun v => v.Typ.id) = some "*Msg_Y" ∧
    (protoGetProperties Cache.empty strayVariant).2 =
      some (returned Cache.empty strayVariant) ∧
    (mapGet (returned Cache.empty strayVariant).OneofTypes "z").map
      (fun v => (v.Typ.id, v.Field)) = some ("*Other_Z", 0) ∧
    (∀ f ∈ strayVariant.Fields, strayWrapper.AssignableTo f.Typ = false) := by
  decide

/-- C15, amended: when the oneof fallback runs (the property set reaching it
has no oneof-group entries, some field carries a `protobuf_oneof` tag, the
method `XXX_OneofFuncs` exists) and returns, the field mapping is kept, and
for every wrapper the method enumerates the entry computed for it records the
wrapper type, the properties parsed from the tag of the first field of the
wrapper struct with `Name` set to the declared name of that field, and as slot
index the index of the first field of the outer type the wrapper type is
assignable to, when there is one; the returned oneof mapping has an entry
under the original name of that field, which is the entry of this wrapper when
no later wrapper has the same original name; and the mapping has no key other
than these original names. -/
theorem fallback_registers_variants (t : StructType) (got sp : StructProperties)
    (ws : List OneofWrapper) (hb : got.OneofTypes = [])
    (hm : ∃ f ∈ t.Fields, f.Tag.Get "protobuf_oneof" ≠ "")
    (hf : t.XXX_OneofFuncs = some (some ws)) (h : oneofFallback t got = some sp) :
    sp.Props = got.Props ∧
    (∀ pre w post, ws = pre ++ w :: post →
      ∃ realField v, w.Field0 = some realField ∧
        v.Typ = w.Typ ∧ v.Props = wrappedProps realField ∧
        (wrappedProps realField).Name = realField.Name ∧
        (∀ i, FirstAssignableAt w t.Fields i → v.Field = i) ∧
        (mapGet sp.OneofTypes (wrappedProps realField).OrigName).isSome = true ∧
        ((∀ w' ∈ post, ∀ f', w'.Field0 = some f' →
            (wrappedProps f').OrigName ≠ (wrappedProps realField).OrigName) →
          mapGet sp.OneofTypes (wrappedProps realField).OrigName = some v)) ∧
    (∀ k v, mapGet sp.OneofTypes k = some v →
      ∃ w ∈ ws, ∃ realField, w.Field0 = some realField ∧
        k = (wrappedProps realField).OrigName) := by
  obtain ⟨hprops, hbuild⟩ := fallback_runs t got sp ws hb hm hf h
  refine ⟨hprops, ?_, ?_⟩
  · intro pre w post hws
    rw [hws] at hbuild
    obtain ⟨k, v, he, hsome, hlast⟩ := buildOneofs_entry t pre post w [] _ hbuild
    obtain ⟨realField, hfield, hk, hv⟩ := oneofEntry_eq t w k v he
    subst hk
    refine ⟨realField, v, hfield, by rw [hv], by rw [hv], Parse_Name _ _, ?_, hsome, ?_⟩
    · intro i hi
      rw [hv, (firstAssignable_iff w t.Fields i).mpr hi]
      rfl
    · intro hpost
      exact hlast (later_keys_ne t post _ hpost)
  · intro k v hkv
    rcases buildOneofs_source t ws [] _ k v hbuild hkv with h0 | ⟨w, hw, he⟩
    · simp [mapGet] at h0
    · obtain ⟨realField, hfield, hk, _⟩ := oneofEntry_eq t w k v he
      exact ⟨w, hw, realField, hfield, hk⟩

/-- The variants `X` and `Y` with the original names `x` and `y`: the
fallback runs, keeps the field mapping and returns the keys `x` and `y`, each
with its wrapper type, the name of the wrapped field, its tag number and the
slot index 1 of the oneof field `Kind`. -/
theorem twoVariants_oneofs :
    (gotBeforeFallback Cache.empty twoVariants).OneofTypes = [] ∧
    (∃ f ∈ twoVariants.Fields, f.Tag.Get "protobuf_oneof" ≠ "") ∧
    twoVariants.XXX_OneofFuncs =
      some (some [kindWrapper "X" "bytes,1,opt,name=x,oneof",
        kindWrapper "Y" "bytes,2,opt,name=y,oneof"]) ∧
    oneofFallback twoVariants (gotBeforeFallback Cache.empty twoVariants) =
      some (returned Cache.empty twoVariants) ∧
    (returned Cache.empty twoVariants).Props =
      (gotBeforeFallback Cache.empty twoVariants).Props ∧
    (returned Cache.empty twoVariants).OneofTypes.map
        (fun e => (e.1, e.2.Typ.id, e.2.Field, e.2.Props.Name, e.2.Props.Tag)) =
      [("x", "*Msg_X", 1, "X", 1), ("y", "*Msg_Y", 1, "Y", 2)] :=
  ⟨by decide, ⟨fieldKind, by decide, by decide⟩, by decide, by decide,
    (fallback_registers_variants twoVariants (gotBeforeFallback Cache.empty twoVariants)
      (returned Cache.empty twoVariants)
      [kindWrapper "X" "bytes,1,opt,name=x,oneof", kindWrapper "Y" "bytes,2,opt,name=y,oneof"]
      (by decide) ⟨fieldKind, by decide, by decide⟩
      (by decide) (by decide)).1,
    by decide⟩

/-- C19: when the oneof fallback runs and returns, (1) for every enumerated
wrapper whose type is assignable to no field of the outer type, the entry
computed and stored for it has the slot index 0, its key is in the returned
oneof mapping, and the mapping holds this entry unless a later wrapper has
the same key; (2) every entry of the returned oneof mapping with a non-zero
slot index `i` belongs to an enumerated wrapper whose type is assignable to
field `i` and to no earlier field; (3) there is a type and a wrapper with the
slot index 0 whose wrapper type field 0 cannot hold. -/
theorem slot_index_zero_ambiguous (t : StructType) (got sp : StructProperties)
    (ws : List OneofWrapper) (hb : got.OneofTypes = [])
    (hm : ∃ f ∈ t.Fields, f.Tag.Get "protobuf_oneof" ≠ "")
    (hf : t.XXX_OneofFuncs = some (some ws)) (h : oneofFallback t got = some sp) :
    (∀ pre w post, ws = pre ++ w :: post →
      (∀ f ∈ t.Fields, w.AssignableTo f.Typ = false) →
      ∃ k v, oneofEntry t w = some (k, v) ∧ v.Field = 0 ∧
        (mapGet sp.OneofTypes k).isSome = true ∧
        ((∀ w' ∈ post, ∀ k' v', oneofEntry t w' = some (k', v') → k' ≠ k) →
          mapGet sp.OneofTypes k = some v)) ∧
    (∀ k v, mapGet sp.OneofTypes k = some v → v.Field ≠ 0 →
      ∃ w ∈ ws, oneofEntry t w = some (k, v) ∧ FirstAssignableAt w t.Fields v.Field) ∧
    (∃ (t0 : StructType) (w0 : OneofWrapper) (k : String) (v : OneofProperties)
        (f : StructField),
      oneofEntry t0 w0 = some (k, v) ∧ v.Field = 0 ∧ index t0.Fields 0 = some f ∧
        w0.AssignableTo f.Typ = false) := by
  obtain ⟨_, hbuild⟩ := fallback_runs t got sp ws hb hm hf h
  refine ⟨?_, ?_, ?_⟩
  · intro pre w post hws hnone
    rw [hws] at hbuild
    obtain ⟨k, v, he, hsome, hlast⟩ := buildOneofs_entry t pre post w [] _ hbuild
    obtain ⟨realField, _, _, hv⟩ := oneofEntry_eq t w k v he
    refine ⟨k, v, he, ?_, hsome, hlast⟩
    rw [hv, (firstAssignable_eq_none w t.Fields 0).mpr hnone]
    rfl
  · intro k v hkv hne
    rcases buildOneofs_source t ws [] _ k v hbuild hkv with h0 | ⟨w, hw, he⟩
    · simp [mapGet] at h0
    · refine ⟨w, hw, he, ?_⟩
      obtain ⟨realField, _, _, hv⟩ := oneofEntry_eq t w k v he
      cases hfa : firstAssignable w t.Fields 0 with
      | none =>
        rw [hv, hfa] at hne
        exact absurd rfl hne
      | some i =>
        have hi := (firstAssignable_iff w t.Fields i).mp hfa
        rw [hv, hfa]
        exact hi
  · exact ⟨strayVariant, strayWrapper, "z",
      ⟨strayWrapper.Typ, 0,
        wrappedProps ⟨"Z", stringT, [("protobuf", "bytes,3,opt,name=z,oneof")]⟩⟩,
      fieldA5, by decide, rfl, by decide, by decide⟩

/-- The variant whose wrapper type no field can hold: the fallback runs, the
entry under `z` has the slot index 0, and field 0 of the outer type, `A`,
cannot hold the wrapper. -/
theorem strayVariant_slot_zero :
    (gotBeforeFallback Cache.empty strayVariant).OneofTypes = [] ∧
    (∃ f ∈ strayVariant.Fields, f.Tag.Get "protobuf_oneof" ≠ "") ∧
    strayVariant.XXX_OneofFuncs = some (some [strayWrapper]) ∧
    oneofFallback strayVariant (gotBeforeFallback Cache.empty strayVariant) =
      some (returned Cache.empty strayVariant) ∧
    (∀ k v, mapGet (returned Cache.empty strayVariant).OneofTypes k = some v → v.Field ≠ 0 →
      ∃ w ∈ [strayWrapper], oneofEntry strayVariant w = some (k, v) ∧
        FirstAssignableAt w strayVariant.Fields v.Field) ∧
    (mapGet (returned Cache.empty strayVariant).OneofTypes "z").map (fun v => v.Field) =
      some 0 ∧
    index strayVariant.Fields 0 = some fieldA5 ∧
    strayWrapper.AssignableTo fieldA5.Typ = false :=
  ⟨by decide, ⟨fieldKind, by decide, by decide⟩, by decide, by decide,
    (slot_index_zero_ambiguous strayVariant (gotBeforeFallback Cache.empty strayVariant)
      (returned Cache.empty strayVariant) [strayWrapper] (by decide)
      ⟨fieldKind, by decide, by decide⟩ (by decide) (by decide)).2.1,
    by decide, by decide, by decide⟩

end Skycfg
